import Mathlib

/-!
Verification of the asar archive codec (header framing, directory index,
packer, extractor, single-file patcher, batch patch orchestrator).

The definitions below are a shallow embedding of the Python sources
`asar/asar_py.py`, `asar/archive.py` and `main.py`: bytes are `List Nat`
(each element a value `< 256`), the JSON header tree is the inductive
`Node`, and filesystem side effects are explicit operation lists.
-/

namespace AsarSpec

/-- A byte string; each element is a byte value. -/
abbrev Bytes := List Nat

/-- `(i + m - 1) & ~(m - 1)` from `_round_up` in the source; for `m` a
power of two and nonnegative `i` the bit trick equals rounding up to the
next multiple of `m`, which is how we state it on `Nat`. -/
def roundUp (i m : Nat) : Nat := (i + m - 1) / m * m

/-- `struct.pack "<I"`: a 32-bit little-endian encoding of `n`. -/
def le32 (n : Nat) : Bytes :=
  [n % 256, n / 256 % 256, n / 256 ^ 2 % 256, n / 256 ^ 3 % 256]

/-- `struct.unpack "<I"`: read a 32-bit little-endian integer. -/
def readLE32 (l : Bytes) : Nat :=
  l.getD 0 0 + 256 * l.getD 1 0 + 256 ^ 2 * l.getD 2 0 + 256 ^ 3 * l.getD 3 0

/-- `fp.seek(pos); fp.read(len)`: the byte slice `[pos, pos+len)`. -/
def slice (arc : Bytes) (pos len : Nat) : Bytes := (arc.drop pos).take len

/-- One node of the decoded header tree.  The Python code stores the tree
as nested `dict`s and discriminates by key presence (`"files"` before
`"offset"`, a file without `"offset"` being an unpacked entry, `"link"`
marking a symlink); the four shapes become the four constructors. -/
inductive Node where
  | file (size offset : Nat) : Node
  | unpacked (size : Nat) : Node
  | link (target : String) : Node
  | dir (files : List (String × Node)) : Node

/-- Directory contents: name/node pairs in dict insertion order. -/
abbrev Entries := List (String × Node)

/-- `f"{prefix}/{name}" if prefix else name` — path joining in the
recursive walks of the source. -/
def joinPath (pre name : String) : String :=
  if pre = "" then name else pre ++ "/" ++ name

/-- The entries of a header tree in tree-walk (depth-first, dict) order,
each paired with its joined archive path; directories contribute their
children and no entry of their own. -/
def flatten (pre : String) : Entries → List (String × Node)
  | [] => []
  | (name, Node.dir sub) :: rest =>
      flatten (joinPath pre name) sub ++ flatten pre rest
  | (name, n) :: rest => (joinPath pre name, n) :: flatten pre rest
termination_by es => sizeOf es
decreasing_by all_goals (simp_wf <;> omega)

/-! ### Directory index: path splitting and `_find_file` -/

/-- Split a character list at every separator character; mirrors Python's
`str.split` for a one-character separator (`"".split` gives `[""]`,
adjacent separators give empty segments). -/
def splitOnChar (p : Char → Bool) : List Char → List (List Char)
  | [] => [[]]
  | c :: cs =>
    match splitOnChar p cs with
    | s :: ss => if p c then [] :: s :: ss else (c :: s) :: ss
    | [] => [[]]

/-- `archive_path.replace("\\", "/").split("/")` from `_find_file`:
replacing every backslash by a slash and then splitting on slashes is
splitting on either character. -/
def splitPath (s : String) : List String :=
  (splitOnChar (fun c => c = '/' || c = '\\') s.data).map String.mk

/-- `node["files"].get(part)`: dict lookup among a directory's entries. -/
def lookupName : Entries → String → Option Node
  | [], _ => none
  | (n, x) :: rest, name => if n = name then some x else lookupName rest name

/-- The segment-walking loop of `_find_file`: `if "files" not in node:
return None; node = node["files"].get(part)`. -/
def resolveParts : Node → List String → Option Node
  | n, [] => some n
  | Node.dir es, part :: rest =>
      match lookupName es part with
      | some child => resolveParts child rest
      | none => none
  | _, _ :: _ => none

/-- `Asar._find_file`: resolve the path and reject a final Directory
(`if "files" in node: return None`). -/
def findFile (root : Node) (archivePath : String) : Option Node :=
  match resolveParts root (splitPath archivePath) with
  | some (Node.dir _) => none
  | some n => some n
  | none => none

/-! ### Patcher: `_recompute_offsets` and `_write_entries` -/

/-- `Asar._recompute_offsets`: walk the entries in dict order; a packed
file (one with an `"offset"` key) gets `size` replaced at the target path
and `offset` set to the running counter, which then advances by the
(possibly new) size; directories recurse; unpacked files and symlinks are
skipped.  Returns the rewritten entries and the final counter. -/
def recomputeOffsets : Entries → String → Nat → Nat → String → Entries × Nat
  | [], _, _, c, _ => ([], c)
  | (name, Node.dir sub) :: rest, rp, ns, c, pre =>
      ((name, Node.dir (recomputeOffsets sub rp ns c (joinPath pre name)).1) ::
        (recomputeOffsets rest rp ns
          (recomputeOffsets sub rp ns c (joinPath pre name)).2 pre).1,
        (recomputeOffsets rest rp ns
          (recomputeOffsets sub rp ns c (joinPath pre name)).2 pre).2)
  | (name, Node.file sz _) :: rest, rp, ns, c, pre =>
      ((name, Node.file (if joinPath pre name = rp then ns else sz) c) ::
        (recomputeOffsets rest rp ns
          (c + if joinPath pre name = rp then ns else sz) pre).1,
        (recomputeOffsets rest rp ns
          (c + if joinPath pre name = rp then ns else sz) pre).2)
  | (name, n) :: rest, rp, ns, c, pre =>
      ((name, n) :: (recomputeOffsets rest rp ns c pre).1,
        (recomputeOffsets rest rp ns c pre).2)
termination_by es => sizeOf es
decreasing_by all_goals (simp_wf <;> omega)

/-- `Asar._write_entries`: walk the *original* entries in the same order
and emit the data region: the replacement bytes at the target path, the
original byte range `[base+offset, base+offset+size)` for every other
packed file; directories recurse, unpacked files and symlinks emit
nothing. -/
def writeEntries (arc : Bytes) (base : Nat) : Entries → String → Bytes → String → Bytes
  | [], _, _, _ => []
  | (name, Node.dir sub) :: rest, rp, nd, pre =>
      writeEntries arc base sub rp nd (joinPath pre name) ++
        writeEntries arc base rest rp nd pre
  | (name, Node.file sz off) :: rest, rp, nd, pre =>
      (if joinPath pre name = rp then nd else slice arc (base + off) sz) ++
        writeEntries arc base rest rp nd pre
  | (_, _) :: rest, rp, nd, pre => writeEntries arc base rest rp nd pre
termination_by es => sizeOf es
decreasing_by all_goals (simp_wf <;> omega)

/-! ### Header codec: `json.dumps(..., sort_keys=True, separators=(",", ":"))`,
UTF-8 encoding, framing, and the `Asar.open` frame decode -/

/-- A lowercase hexadecimal digit. -/
def hexDigit (n : Nat) : Char :=
  if n < 10 then Char.ofNat (48 + n) else Char.ofNat (87 + n)

/-- Four lowercase hex digits, as in Python's `\uXXXX` escapes. -/
def hex4 (n : Nat) : List Char :=
  [hexDigit (n / 4096 % 16), hexDigit (n / 256 % 16), hexDigit (n / 16 % 16),
    hexDigit (n % 16)]

/-- Escaping of one character by `json.dumps` with its default
`ensure_ascii=True`: quote and backslash escaped, the five short control
escapes, `\uXXXX` for every other character outside printable ASCII
`0x20`–`0x7e` (surrogate pairs above U+FFFF). -/
def jsonEscapeChar (c : Char) : List Char :=
  let n := c.toNat
  if c = '"' then ['\\', '"']
  else if c = '\\' then ['\\', '\\']
  else if n = 8 then ['\\', 'b']
  else if n = 9 then ['\\', 't']
  else if n = 10 then ['\\', 'n']
  else if n = 12 then ['\\', 'f']
  else if n = 13 then ['\\', 'r']
  else if n < 32 then '\\' :: 'u' :: hex4 n
  else if n < 127 then [c]
  else if n < 65536 then '\\' :: 'u' :: hex4 n
  else
    ('\\' :: 'u' :: hex4 (55296 + (n - 65536) / 1024)) ++
      ('\\' :: 'u' :: hex4 (56320 + (n - 65536) % 1024))

/-- A JSON string literal for `s`. -/
def jsonStr (s : String) : String :=
  "\"" ++ String.mk (s.data.flatMap jsonEscapeChar) ++ "\""

/-- `sort_keys=True`: object members emitted in ascending key order. -/
def sortPairs (l : List (String × String)) : List (String × String) :=
  l.insertionSort (fun a b => a.1 ≤ b.1)

mutual

/-- `json.dumps(node, sort_keys=True, separators=(",", ":"))` for one
tree node.  A packed file serializes as an object with keys `offset`
(decimal string) and `size` (integer), already in sorted key order; an
unpacked file has only `size`; a symlink only `link`; a directory is
`{"files": {...}}` with its members sorted by name. -/
def jsonNode : Node → String
  | Node.file sz off =>
      "\x7b\"offset\":\"" ++ toString off ++ "\",\"size\":" ++ toString sz ++ "\x7d"
  | Node.unpacked sz => "\x7b\"size\":" ++ toString sz ++ "\x7d"
  | Node.link t => "\x7b\"link\":" ++ jsonStr t ++ "\x7d"
  | Node.dir es =>
      "\x7b\"files\":\x7b" ++
        String.intercalate ","
          ((sortPairs (jsonMembers es)).map fun p => jsonStr p.1 ++ ":" ++ p.2) ++
        "\x7d\x7d"
termination_by n => sizeOf n
decreasing_by all_goals simp_wf

/-- The rendered members of a directory, keyed by their raw names. -/
def jsonMembers : Entries → List (String × String)
  | [] => []
  | (n, x) :: rest => (n, jsonNode x) :: jsonMembers rest
termination_by es => sizeOf es
decreasing_by all_goals (simp_wf <;> omega)

end

/-- UTF-8 encoding of one character (`str.encode()`). -/
def utf8Char (c : Char) : Bytes :=
  let n := c.toNat
  if n < 128 then [n]
  else if n < 2048 then [192 + n / 64, 128 + n % 64]
  else if n < 65536 then [224 + n / 4096, 128 + n / 64 % 64, 128 + n % 64]
  else [240 + n / 262144, 128 + n / 4096 % 64, 128 + n / 64 % 64, 128 + n % 64]

/-- `header_json = json.dumps(...).encode()`. -/
def utf8Bytes (s : String) : Bytes := s.data.flatMap utf8Char

/-- The serialized header bytes of a tree. -/
def headerJsonBytes (h : Node) : Bytes := utf8Bytes (jsonNode h)

/-- The framed header emitted by `compress` and `replace_file`: the four
little-endian 32-bit fields `data_size = 4`, `header_size = aligned + 8`,
`header_object_size = aligned + 4`, `header_string_size`, then the JSON
bytes padded with NULs to `aligned = round_up(header_string_size, 4)`. -/
def headerFrame (hj : Bytes) : Bytes :=
  le32 4 ++ le32 (roundUp hj.length 4 + 8) ++ le32 (roundUp hj.length 4 + 4) ++
    le32 hj.length ++ hj ++ List.replicate (roundUp hj.length 4 - hj.length) 0

/-- The four frame fields read at the start of `Asar.open` by
`struct.unpack("<4I", fp.read(16))`. -/
def openFields (arc : Bytes) : Nat × Nat × Nat × Nat :=
  (readLE32 (slice arc 0 4), readLE32 (slice arc 4 4), readLE32 (slice arc 8 4),
    readLE32 (slice arc 12 4))

/-- `fp.read(header_string_size)` after the frame. -/
def openHeaderBytes (arc : Bytes) : Bytes :=
  slice arc 16 (openFields arc).2.2.2

/-- `base_offset=_round_up(16 + header_string_size, 4)` in `Asar.open`:
the base offset is recomputed from the `header_string_size` field just
read. -/
def openBaseOffset (arc : Bytes) : Nat :=
  roundUp (16 + (openFields arc).2.2.2) 4

/-! ### Extractor and patcher entry points, with explicit file-system
operations for the commit step -/

/-- The error signals of the codec: `FileNotFoundError` raised for an
unresolvable archive path or a missing replacement source, and the
`KeyError` raised when a dict is probed for an absent key. -/
inductive CodecErr where
  | notFound : CodecErr
  | keyErr (key : String) : CodecErr
  | srcMissing : CodecErr
deriving DecidableEq

/-- `Asar.extract_file`: `_find_file` returning `None` raises
`FileNotFoundError`; otherwise `_read_and_write` seeks to
`base_offset + int(info["offset"])` and reads `int(info["size"])` bytes —
so a found node without an `"offset"` key (an unpacked file or a symlink)
raises `KeyError("offset")` instead. -/
def extractFileRes (h : Node) (arc : Bytes) (base : Nat) (p : String) :
    Except CodecErr Bytes :=
  match findFile h p with
  | none => Except.error CodecErr.notFound
  | some (Node.file sz off) => Except.ok (slice arc (base + off) sz)
  | some _ => Except.error (CodecErr.keyErr "offset")

/-- `out.with_suffix(out.suffix + ".tmp")` (and `output + ".tmp"` in
`archive.py`): the temporary file adjacent to the destination. -/
def tmpName (out : String) : String := out ++ ".tmp"

/-- The complete output archive assembled in memory by
`Asar.replace_file`: the re-encoded frame and header for the
offset-recomputed tree, followed by `_write_entries` over the *original*
tree. -/
def replaceArchiveBytes (es : Entries) (arc : Bytes) (base : Nat) (rp : String)
    (nd : Bytes) : Bytes :=
  headerFrame (headerJsonBytes (Node.dir (recomputeOffsets es rp nd.length 0 "").1)) ++
    writeEntries arc base es rp nd ""

/-- The `base_offset` a reader of the archive produced by `replace_file`
computes: `_round_up(16 + header_string_size, 4)` for the new header's
serialized size. -/
def replaceBase (es : Entries) (rp : String) (nd : Bytes) : Nat :=
  roundUp (16 + (headerJsonBytes (Node.dir (recomputeOffsets es rp nd.length 0 "").1)).length) 4

/-- A mutation of the file system performed by the code: writing a whole
file, `os.replace`-style atomic rename (destination overwritten, source
removed), or `mkdir(parents=True, exist_ok=True)` which touches no file
contents. -/
inductive FOp where
  | write (path : String) (data : Bytes) : FOp
  | rename (src dst : String) : FOp
  | mkdirp (path : String) : FOp

/-- File contents by path. -/
def FileSys := String → Option Bytes

/-- Effect of one operation on the file system. -/
def applyFOp (st : FileSys) : FOp → FileSys
  | FOp.write p d => fun q => if q = p then some d else st q
  | FOp.rename s d => fun q => if q = d then st s else if q = s then none else st q
  | FOp.mkdirp _ => st

/-- Effect of a sequence of operations, first to last. -/
def applyFOps (st : FileSys) (ops : List FOp) : FileSys := ops.foldl applyFOp st

/-- `Asar.replace_file`: checks `src.is_file()` (the `srcOk` flag), then
`_find_file(archive_path)`; on success the whole output is assembled in
memory and the only file-system operations are writing the adjacent
temporary file and atomically renaming it over the destination. -/
def replaceFileOps (es : Entries) (arc : Bytes) (base : Nat) (srcOk : Bool)
    (rp : String) (nd : Bytes) (out : String) : Except CodecErr (List FOp) :=
  if !srcOk then Except.error CodecErr.srcMissing
  else
    match findFile (Node.dir es) rp with
    | none => Except.error CodecErr.notFound
    | some _ =>
        Except.ok [FOp.write (tmpName out) (replaceArchiveBytes es arc base rp nd),
          FOp.rename (tmpName out) out]

/-- `Asar._extract_directory` / `_extract_file`: walk the tree from
`source = "."`, building each `item_path = f"{source}/{name}"`; packed
files are written with the bytes at `[base+offset, base+offset+size)`;
unpacked files are copied from the sidecar directory (no archive read)
and symlinks are created separately, so neither contributes a file write
from the archive. -/
def extractWalk (arc : Bytes) (base : Nat) : String → Entries → List (String × Bytes)
  | _, [] => []
  | src, (name, Node.dir sub) :: rest =>
      extractWalk arc base (src ++ "/" ++ name) sub ++ extractWalk arc base src rest
  | src, (name, Node.file sz off) :: rest =>
      (src ++ "/" ++ name, slice arc (base + off) sz) :: extractWalk arc base src rest
  | src, (_, _) :: rest => extractWalk arc base src rest
termination_by _ es => sizeOf es
decreasing_by all_goals (simp_wf <;> omega)

/-- `Asar.extract` on an archive with entries `es`: the full-tree walk
starting from `"."`. -/
def extractAll (es : Entries) (arc : Bytes) (base : Nat) : List (String × Bytes) :=
  extractWalk arc base "." es

/-- The archive's data region serves back each listed blob in turn:
starting at relative offset `c`, the slice at `base + c` of the first
blob's length is that blob, and so on with the offset advanced by each
blob's length.  This is the reading-side invariant of the sequential
layout `compress` writes. -/
def readsBack (arc : Bytes) (base : Nat) : Nat → List Bytes → Prop
  | _, [] => True
  | c, d :: rest =>
      slice arc (base + c) d.length = d ∧ readsBack arc base (c + d.length) rest

/-- Splitting a path string on `/`, as `pathlib` does. -/
def pathSegs (s : String) : List String :=
  (splitOnChar (fun c => c = '/') s.data).map String.mk

/-- Joining path segments with `/`. -/
def joinSegs : List String → String
  | [] => ""
  | [a] => a
  | a :: rest => a ++ "/" ++ joinSegs rest

/-- `pathlib` collapses empty and `"."` segments when a string is turned
into a `Path`; the file written at `destination / item_path` therefore
lands at the normalized relative path. -/
def normPath (s : String) : String :=
  joinSegs ((pathSegs s).filter fun seg => seg != "" && seg != ".")

/-- `Path.parent`: the path with its final segment removed (adequate for
the multi-segment paths the theorems instantiate). -/
def pparent (s : String) : String := joinSegs (pathSegs s).dropLast

/-- `Path(...).name`: the final path segment. -/
def pname (s : String) : String := (pathSegs s).getLastD ""

/-- Whether a POSIX path string is absolute. -/
def isAbsPath (s : String) : Bool := s.data.head? = some '/'

/-- The `/` operator of `pathlib`: an absolute right operand replaces the
left operand entirely. -/
def pjoin (a b : String) : String := if isAbsPath b then b else a ++ "/" ++ b

/-- `link_to = (destination / link).parent / Path(link).name` from
`Asar._extract_link`. -/
def linkTarget (destination link : String) : String :=
  pjoin (pparent (pjoin destination link)) (pname link)

/-- Symbolic links on disk: target by link path. -/
def LinkState := String → Option String

/-- `_extract_link` calls `symlink_to` and, on `FileExistsError`, unlinks
the existing entry and retries — the final state always maps the
destination filename to the new target. -/
def applySymlink (st : LinkState) (path target : String) : LinkState :=
  fun q => if q = path then some target else st q

/-! ### Packer: the disk tree and `Asar.compress` -/

/-- A disk tree as seen by `_dir_to_dict`: regular files with their
bytes, directories, and symlinks.  A symlink carries the string
`str(entry.resolve())` — the fully resolved (absolute) target the OS
reports for it. -/
inductive FS where
  | file (data : Bytes) : FS
  | dir (entries : List (String × FS)) : FS
  | symlink (resolvedTarget : String) : FS

/-- `sorted(directory.iterdir())`: entries of one directory in ascending
name order (paths sharing a parent compare by final component). -/
def sortByName (es : List (String × FS)) : List (String × FS) :=
  es.insertionSort fun a b => a.1 ≤ b.1

/-- `Asar.compress._dir_to_dict` over one directory's (already sorted)
entry list, with the shared running `offset` and the collected
`file_paths` data: a symlink becomes `{"link": str(entry.resolve())}`, a
directory recurses over its own sorted entries, and a regular file
becomes `{"size": size, "offset": str(offset)}` with the data appended
and the offset advanced.  Returns the header entries, the final offset,
and the file bytes in walk order. -/
def packEntries : List (String × FS) → Nat → Entries × Nat × List Bytes
  | [], c => ([], c, [])
  | (name, FS.symlink t) :: rest, c =>
      ((name, Node.link t) :: (packEntries rest c).1, (packEntries rest c).2)
  | (name, FS.dir sub) :: rest, c =>
      ((name, Node.dir (packEntries (sortByName sub) c).1) ::
        (packEntries rest (packEntries (sortByName sub) c).2.1).1,
        (packEntries rest (packEntries (sortByName sub) c).2.1).2.1,
        (packEntries (sortByName sub) c).2.2 ++
          (packEntries rest (packEntries (sortByName sub) c).2.1).2.2)
  | (name, FS.file d) :: rest, c =>
      ((name, Node.file d.length c) :: (packEntries rest (c + d.length)).1,
        (packEntries rest (c + d.length)).2.1,
        d :: (packEntries rest (c + d.length)).2.2)
termination_by es => sizeOf es
decreasing_by
  all_goals simp_wf
  all_goals
    (have key : ∀ (a b : List (String × FS)), a.Perm b → sizeOf a = sizeOf b := by
       intro a b h
       induction h with
       | nil => rfl
       | cons x _ ih => simp only [List.cons.sizeOf_spec]; omega
       | swap x y l => simp only [List.cons.sizeOf_spec]; omega
       | trans _ _ ih1 ih2 => omega
     have hs : sizeOf (sortByName sub) = sizeOf sub :=
       key _ _ (List.perm_insertionSort _ sub)
     omega)

/-- The header tree `Asar.compress` builds for a root directory with
entries `es`: `_dir_to_dict(root)` iterating `sorted(root.iterdir())`. -/
def compressHeader (es : List (String × FS)) : Node :=
  Node.dir (packEntries (sortByName es) 0).1

/-- The concatenated file bytes written after the header by `compress`,
in exactly the walk order that assigned the offsets. -/
def compressData (es : List (String × FS)) : Bytes :=
  (packEntries (sortByName es) 0).2.2.flatten

/-- The full in-memory archive produced by `Asar.compress`. -/
def compressArchive (es : List (String × FS)) : Bytes :=
  headerFrame (headerJsonBytes (compressHeader es)) ++ compressData es

/-- `base_offset=_round_up(16 + header_string_size, 4)` as set by
`compress`. -/
def compressBase (es : List (String × FS)) : Nat :=
  roundUp (16 + (headerJsonBytes (compressHeader es)).length) 4

/-- The same walk as `packEntries` but without the per-directory sort;
`packEntries` factors through it via `canonList` (proved below), which is
how order-independence of packing is stated. -/
def packPlain : List (String × FS) → Nat → Entries × Nat × List Bytes
  | [], c => ([], c, [])
  | (name, FS.symlink t) :: rest, c =>
      ((name, Node.link t) :: (packPlain rest c).1, (packPlain rest c).2)
  | (name, FS.dir sub) :: rest, c =>
      ((name, Node.dir (packPlain sub c).1) ::
        (packPlain rest (packPlain sub c).2.1).1,
        (packPlain rest (packPlain sub c).2.1).2.1,
        (packPlain sub c).2.2 ++ (packPlain rest (packPlain sub c).2.1).2.2)
  | (name, FS.file d) :: rest, c =>
      ((name, Node.file d.length c) :: (packPlain rest (c + d.length)).1,
        (packPlain rest (c + d.length)).2.1,
        d :: (packPlain rest (c + d.length)).2.2)
termination_by es => sizeOf es
decreasing_by all_goals (simp_wf <;> omega)

mutual

/-- The canonical form of one disk node: every directory's entry list
recursively replaced by its sorted form.  Two disk trees with the same
canonical form differ only by per-directory enumeration order — exactly
the freedom `os.iterdir` has. -/
def canonFS : FS → FS
  | FS.file d => FS.file d
  | FS.symlink t => FS.symlink t
  | FS.dir es => FS.dir (sortByName (canonMap es))
termination_by f => sizeOf f
decreasing_by all_goals simp_wf

/-- Canonicalize each entry's node, keeping names and order. -/
def canonMap : List (String × FS) → List (String × FS)
  | [] => []
  | (name, f) :: rest => (name, canonFS f) :: canonMap rest
termination_by es => sizeOf es
decreasing_by all_goals (simp_wf <;> omega)

end

/-- The canonical (recursively name-sorted) form of a directory's
entries. -/
def canonList (es : List (String × FS)) : List (String × FS) :=
  sortByName (canonMap es)

/-- The regular files of a disk tree in walk order, with joined
archive-relative paths — the reference flattening the round-trip theorem
compares against. -/
def fsFiles (pre : String) : List (String × FS) → List (String × Bytes)
  | [] => []
  | (name, FS.dir sub) :: rest =>
      fsFiles (joinPath pre name) sub ++ fsFiles pre rest
  | (name, FS.file d) :: rest => (joinPath pre name, d) :: fsFiles pre rest
  | (_, FS.symlink _) :: rest => fsFiles pre rest
termination_by es => sizeOf es
decreasing_by all_goals (simp_wf <;> omega)

/-- The symlinks of a disk tree in walk order with their recorded
(resolved) targets. -/
def fsLinks (pre : String) : List (String × FS) → List (String × String)
  | [] => []
  | (name, FS.dir sub) :: rest =>
      fsLinks (joinPath pre name) sub ++ fsLinks pre rest
  | (name, FS.symlink t) :: rest => (joinPath pre name, t) :: fsLinks pre rest
  | (_, FS.file _) :: rest => fsLinks pre rest
termination_by es => sizeOf es
decreasing_by all_goals (simp_wf <;> omega)

/-! ### Header observers used by the statements -/

/-- The packed files among flattened entries: `(path, size, offset)`
triples in order. -/
def packedOfItems (items : List (String × Node)) : List (String × Nat × Nat) :=
  items.filterMap fun x =>
    match x.2 with
    | Node.file sz off => some (x.1, sz, off)
    | _ => none

/-- The packed files of a header in tree-walk order:
`(path, size, offset)` triples. -/
def packedItems (pre : String) (es : Entries) : List (String × Nat × Nat) :=
  packedOfItems (flatten pre es)

/-- The symlinks of a header in tree-walk order with their targets. -/
def linkItems (pre : String) (es : Entries) : List (String × String) :=
  (flatten pre es).filterMap fun x =>
    match x.2 with
    | Node.link t => some (x.1, t)
    | _ => none

/-- `offset[0] = c` and `offset[i+1] = offset[i] + size[i]`: the data
regions are gapless starting at `c`. -/
def contiguousFrom (c : Nat) : List (String × Nat × Nat) → Prop
  | [] => True
  | (_, sz, off) :: rest => off = c ∧ contiguousFrom (c + sz) rest

/-- Erase exactly the header fields `replace` is allowed to change:
every packed file's offset, and the size at the target path.  Two headers
with equal scrubbed forms differ at most in those fields. -/
def scrubVar (rp : String) (pre : String) : Entries → Entries
  | [] => []
  | (name, Node.dir sub) :: rest =>
      (name, Node.dir (scrubVar rp (joinPath pre name) sub)) :: scrubVar rp pre rest
  | (name, Node.file sz _) :: rest =>
      (name, Node.file (if joinPath pre name = rp then 0 else sz) 0) ::
        scrubVar rp pre rest
  | (name, n) :: rest => (name, n) :: scrubVar rp pre rest
termination_by es => sizeOf es
decreasing_by all_goals (simp_wf <;> omega)

/-- Adjacent-pairs ordering check on a name list. -/
def chainLe : List String → Bool
  | [] => true
  | [_] => true
  | a :: b :: rest => if a ≤ b then chainLe (b :: rest) else false

/-- Every directory level of the entries, including nested ones, lists
its names in ascending order. -/
def childrenSorted : Entries → Bool
  | [] => true
  | (_, Node.dir sub) :: rest =>
      (chainLe (sub.map Prod.fst) && childrenSorted sub) && childrenSorted rest
  | _ :: rest => childrenSorted rest
termination_by es => sizeOf es
decreasing_by all_goals (simp_wf <;> omega)

/-- The whole header tree is name-sorted at every level. -/
def treeSorted (es : Entries) : Bool :=
  chainLe (es.map Prod.fst) && childrenSorted es

/-! ### Spec-level observers for the offset-assignment and data-layout
arguments -/

/-- Sequential offset assignment over an already flattened entry list:
what `_recompute_offsets` does to the packed files, expressed without the
tree.  The target path's size is replaced by `ns`; every packed file gets
the running counter as offset. -/
def assignItems (rp : String) (ns : Nat) : Nat → List (String × Node) → List (String × Node)
  | _, [] => []
  | c, (p, Node.file sz _) :: rest =>
      (p, Node.file (if p = rp then ns else sz) c) ::
        assignItems rp ns (c + if p = rp then ns else sz) rest
  | c, (p, n) :: rest => (p, n) :: assignItems rp ns c rest

/-- Total data length contributed by a flattened entry list under the
replacement at `rp`. -/
def itemsWeight (rp : String) (ns : Nat) : List (String × Node) → Nat
  | [] => 0
  | (p, Node.file sz _) :: rest =>
      (if p = rp then ns else sz) + itemsWeight rp ns rest
  | (_, _) :: rest => itemsWeight rp ns rest

/-- The bytes `_write_entries` emits for one flattened entry. -/
def chunkOf (arc : Bytes) (base : Nat) (rp : String) (nd : Bytes) :
    String × Node → Bytes
  | (p, Node.file sz off) => if p = rp then nd else slice arc (base + off) sz
  | _ => []

/-- The data region as the concatenation of per-entry chunks. -/
def chunksOf (arc : Bytes) (base : Nat) (rp : String) (nd : Bytes)
    (items : List (String × Node)) : Bytes :=
  (items.map (chunkOf arc base rp nd)).flatten

/-- Sequential offset assignment for freshly packed files: path, size and
running offset. -/
def assignFS : Nat → List (String × Bytes) → List (String × Nat × Nat)
  | _, [] => []
  | c, (p, d) :: rest => (p, d.length, c) :: assignFS (c + d.length) rest

/-- Every packed file's byte range lies inside the archive. -/
def inBoundsB (arcLen base : Nat) : String × Node → Bool
  | (_, Node.file sz off) => decide (base + off + sz ≤ arcLen)
  | _ => true

/-- A legal directory-entry name: nonempty, not `"."`, and free of the
`/` separator (what any real directory listing yields). -/
def validNameB (s : String) : Bool :=
  s != "" && s != "." && s.data.all fun c => c != '/'

/-- All names in a disk tree are legal. -/
def validFSB : List (String × FS) → Bool
  | [] => true
  | (name, FS.dir sub) :: rest => validNameB name && validFSB sub && validFSB rest
  | (name, _) :: rest => validNameB name && validFSB rest
termination_by es => sizeOf es
decreasing_by all_goals (simp_wf <;> omega)

/-- A disk tree of regular files and directories only (the round-trip
claim's precondition). -/
def filesOnlyB : List (String × FS) → Bool
  | [] => true
  | (_, FS.dir sub) :: rest => filesOnlyB sub && filesOnlyB rest
  | (_, FS.file _) :: rest => filesOnlyB rest
  | (_, FS.symlink _) :: _ => false
termination_by es => sizeOf es
decreasing_by all_goals (simp_wf <;> omega)

/-! ### Batch patch orchestrator (`main.cmd_patch`) -/

/-- The validated plan extracted from the YAML config: source archive,
destination archive, and the ordered `(archive path, replacement source)`
pairs. -/
structure PatchPlan where
  src : String
  dst : String
  files : List (String × String)

/-- `working = Path(tmp_dir) / "working.asar"`. -/
def workingPath (tmpdir : String) : String := tmpdir ++ "/working.asar"

/-- The operations of the replacement loop: each successful
`AsarArchive.replace_file(archive_path, src, output=working)` call writes
`working + ".tmp"` and renames it over `working` (a failing call stops the
loop; any partial operation of the failing call also targets only those
two paths and is elided).  `stepFn i` abstracts the collaborator's output
bytes for step `i`, `none` meaning the step raised. -/
def patchStepsOps (w : String) (stepFn : Nat → Option Bytes) : List Nat → List FOp × Bool
  | [] => ([], true)
  | i :: rest =>
      match stepFn i with
      | none => ([], false)
      | some b =>
          (FOp.write (tmpName w) b :: FOp.rename (tmpName w) w ::
            (patchStepsOps w stepFn rest).1,
            (patchStepsOps w stepFn rest).2)

/-- Whether `p` lies inside the directory `d` (i.e. `d ++ "/"` begins
`p`). -/
def underDir (d p : String) : Bool := (d ++ "/").data.isPrefixOf p.data

/-- The paths whose file contents an operation can change or remove. -/
def opTouches : FOp → List String
  | FOp.write p _ => [p]
  | FOp.rename s d => [s, d]
  | FOp.mkdirp _ => []

/-- `main.cmd_patch` after config parsing: validates that the source
archive and every replacement source exist — all before any write —
then copies the source archive to the working file inside the temporary
directory, applies each replacement there, and only after every step
succeeded creates the destination's parent directories and moves the
working file onto the destination (`shutil.move`, modelled as an atomic
rename).  Returns the executed operations and whether the command
succeeded. -/
def cmdPatch (isFile : String → Bool) (plan : PatchPlan) (tmpdir : String)
    (srcBytes : Bytes) (stepFn : Nat → Option Bytes) : List FOp × Bool :=
  if isFile plan.src = false then ([], false)
  else if plan.files = [] then ([], false)
  else if plan.files.any (fun e => !isFile e.2) = true then ([], false)
  else if (patchStepsOps (workingPath tmpdir) stepFn
      (List.range plan.files.length)).2 = true then
    (FOp.write (workingPath tmpdir) srcBytes ::
      (patchStepsOps (workingPath tmpdir) stepFn (List.range plan.files.length)).1 ++
      [FOp.mkdirp (pparent plan.dst), FOp.rename (workingPath tmpdir) plan.dst],
      true)
  else
    (FOp.write (workingPath tmpdir) srcBytes ::
      (patchStepsOps (workingPath tmpdir) stepFn (List.range plan.files.length)).1,
      false)

/-! ## Theorems -/

theorem roundUp_le_self (n : Nat) : n ≤ roundUp n 4 := by
  unfold roundUp; omega

theorem roundUp_shift (n : Nat) : roundUp (16 + n) 4 = 16 + roundUp n 4 := by
  unfold roundUp; omega

theorem roundUp_le_add_three (n : Nat) : roundUp n 4 ≤ n + 3 := by
  unfold roundUp; omega

theorem le32_length (n : Nat) : (le32 n).length = 4 := rfl

theorem readLE32_le32 (n : Nat) (h : n < 4294967296) : readLE32 (le32 n) = n := by
  show n % 256 + 256 * (n / 256 % 256) + 256 ^ 2 * (n / 256 ^ 2 % 256) +
      256 ^ 3 * (n / 256 ^ 3 % 256) = n
  have h2 : (256 : Nat) ^ 2 = 65536 := by norm_num
  have h3 : (256 : Nat) ^ 3 = 16777216 := by norm_num
  rw [h2, h3]
  omega

theorem slice_zero (A B : Bytes) : slice (A ++ B) 0 A.length = A := by
  simp [slice, List.take_left]

theorem slice_shift (A B : Bytes) (k n : Nat) :
    slice (A ++ B) (A.length + k) n = slice B k n := by
  simp [slice, List.drop_append]

theorem headerFrame_length (hj : Bytes) :
    (headerFrame hj).length = 16 + roundUp hj.length 4 := by
  have h := roundUp_le_self hj.length
  simp only [headerFrame, List.length_append, le32_length, List.length_replicate]
  omega

theorem slice_zero_of_length (A B : Bytes) (m : Nat) (hm : A.length = m) :
    slice (A ++ B) 0 m = A := by
  subst hm; exact slice_zero A B

theorem openFrame_fields (a b c e : Nat) (R : Bytes) :
    openFields (le32 a ++ (le32 b ++ (le32 c ++ (le32 e ++ R)))) =
      (readLE32 (le32 a), readLE32 (le32 b), readLE32 (le32 c), readLE32 (le32 e)) := rfl

theorem openFrame_rest (a b c e : Nat) (R : Bytes) (n : Nat) :
    slice (le32 a ++ (le32 b ++ (le32 c ++ (le32 e ++ R)))) 16 n = slice R 0 n := rfl

/-- C4: `encode` emits the four little-endian 32-bit fields
`data_size = 4`, `header_size = aligned + 8`,
`header_object_size = aligned + 4` and `header_string_size`, followed by
the serialized tree NUL-padded to `aligned = round_up(header_string_size, 4)`;
and on any archive so framed, `open` reads those fields back and
recomputes `base_offset = 16 + aligned` from the `header_string_size`
field rather than assuming a fixed header length. -/
theorem claim_c4_header_codec (h : Node) (d : Bytes)
    (h32 : (headerJsonBytes h).length + 11 < 4294967296) :
    openFields (headerFrame (headerJsonBytes h) ++ d) =
      (4, roundUp (headerJsonBytes h).length 4 + 8,
        roundUp (headerJsonBytes h).length 4 + 4, (headerJsonBytes h).length) ∧
    openHeaderBytes (headerFrame (headerJsonBytes h) ++ d) = headerJsonBytes h ∧
    openBaseOffset (headerFrame (headerJsonBytes h) ++ d) =
      16 + roundUp (headerJsonBytes h).length 4 ∧
    slice (headerFrame (headerJsonBytes h) ++ d) 16 (roundUp (headerJsonBytes h).length 4) =
      headerJsonBytes h ++
        List.replicate (roundUp (headerJsonBytes h).length 4 - (headerJsonBytes h).length) 0 := by
  set hj := headerJsonBytes h with hhj
  have hle : hj.length ≤ roundUp hj.length 4 := roundUp_le_self hj.length
  have hub : roundUp hj.length 4 ≤ hj.length + 3 := roundUp_le_add_three hj.length
  have harc : headerFrame hj ++ d =
      le32 4 ++ (le32 (roundUp hj.length 4 + 8) ++ (le32 (roundUp hj.length 4 + 4) ++
        (le32 hj.length ++ ((hj ++ List.replicate (roundUp hj.length 4 - hj.length) 0) ++ d)))) := by
    simp [headerFrame, List.append_assoc]
  have hpadlen : (hj ++ List.replicate (roundUp hj.length 4 - hj.length) 0).length =
      roundUp hj.length 4 := by
    simp only [List.length_append, List.length_replicate]; omega
  have hfields : openFields (headerFrame hj ++ d) =
      (4, roundUp hj.length 4 + 8, roundUp hj.length 4 + 4, hj.length) := by
    rw [harc, openFrame_fields]
    rw [readLE32_le32 _ (by omega), readLE32_le32 _ (by omega), readLE32_le32 _ (by omega),
      readLE32_le32 _ (by omega)]
  have hslice16 : ∀ n : Nat, slice (headerFrame hj ++ d) (16 : Nat) n =
      slice ((hj ++ List.replicate (roundUp hj.length 4 - hj.length) 0) ++ d) 0 n := by
    intro n
    rw [harc, openFrame_rest]
  refine ⟨hfields, ?_, ?_, ?_⟩
  · rw [openHeaderBytes, hfields]
    rw [hslice16]
    simp only [slice, List.drop_zero, List.append_assoc]
    rw [List.take_append_eq_append_take]
    simp [hle]
  · rw [openBaseOffset, hfields]
    exact roundUp_shift hj.length
  · rw [hslice16]
    exact slice_zero_of_length _ _ _ hpadlen

/-- Witness for C4 at a concrete archive: the empty-directory header. -/
theorem claim_c4_header_codec_witness :
    (headerJsonBytes (Node.dir [])).length + 11 < 4294967296 ∧
    openBaseOffset (headerFrame (headerJsonBytes (Node.dir [])) ++ [7, 7]) =
      16 + roundUp (headerJsonBytes (Node.dir [])).length 4 := by
  have hlen : (headerJsonBytes (Node.dir [])).length = 12 := by
    simp [headerJsonBytes, jsonNode, jsonMembers, sortPairs, utf8Bytes, utf8Char,
      List.insertionSort, String.intercalate]
  refine ⟨by omega, (claim_c4_header_codec (Node.dir []) [7, 7] (by omega)).2.2.1⟩

theorem tmpName_ne (out : String) : tmpName out ≠ out := by
  intro h
  have hl := congrArg String.length h
  rw [tmpName, String.length_append] at hl
  have h4 : (".tmp" : String).length = 4 := rfl
  omega

/-- C2: on a successful `replace_file` the whole output (header plus data
region) is written to the adjacent temporary file and then atomically
renamed over the destination; every proper prefix of that operation
sequence — i.e. any failure before the final rename — leaves the
destination's contents unchanged, and the full sequence installs exactly
the assembled archive bytes.  (The failing paths of `replaceFileOps` —
missing source file or unresolvable archive path, and every other failure
during the in-memory assembly — return an error before any operation
exists, so they cannot touch the destination at all.) -/
theorem claim_c2_replace_atomic (es : Entries) (arc : Bytes) (base : Nat)
    (rp : String) (nd : Bytes) (out : String)
    (hfind : findFile (Node.dir es) rp ≠ none) :
    ∃ ops, replaceFileOps es arc base true rp nd out = Except.ok ops ∧
      ops = [FOp.write (tmpName out) (replaceArchiveBytes es arc base rp nd),
        FOp.rename (tmpName out) out] ∧
      tmpName out ≠ out ∧
      (∀ (st : FileSys) (k : Nat), k < ops.length →
        applyFOps st (ops.take k) out = st out) ∧
      (∀ st : FileSys,
        applyFOps st ops out = some (replaceArchiveBytes es arc base rp nd)) := by
  refine ⟨[FOp.write (tmpName out) (replaceArchiveBytes es arc base rp nd),
    FOp.rename (tmpName out) out], ?_, rfl, tmpName_ne out, ?_, ?_⟩
  · rw [replaceFileOps]
    cases hf : findFile (Node.dir es) rp with
    | none => exact absurd hf hfind
    | some x => simp
  · intro st k hk
    match k with
    | 0 => rfl
    | 1 =>
        simp only [List.take, applyFOps, List.foldl, applyFOp]
        rw [if_neg]
        intro h
        exact tmpName_ne out h.symm
    | n + 2 => simp at hk
  · intro st
    simp only [applyFOps, List.foldl, applyFOp]
    simp

/-- Witness for C2: a one-file archive and an existing target path. -/
theorem claim_c2_replace_atomic_witness :
    findFile (Node.dir [("a", Node.file 2 0)]) "a" ≠ none ∧
    ∃ ops, replaceFileOps [("a", Node.file 2 0)] [9, 9] 0 true "a" [5] "out.asar" =
        Except.ok ops ∧
      ops = [FOp.write (tmpName "out.asar")
          (replaceArchiveBytes [("a", Node.file 2 0)] [9, 9] 0 "a" [5]),
        FOp.rename (tmpName "out.asar") "out.asar"] ∧
      tmpName "out.asar" ≠ "out.asar" ∧
      (∀ (st : FileSys) (k : Nat), k < ops.length →
        applyFOps st (ops.take k) "out.asar" = st "out.asar") ∧
      (∀ st : FileSys, applyFOps st ops "out.asar" =
        some (replaceArchiveBytes [("a", Node.file 2 0)] [9, 9] 0 "a" [5])) := by
  have hfind : findFile (Node.dir [("a", Node.file 2 0)]) "a" ≠ none := by
    simp [findFile, resolveParts, splitPath, splitOnChar, lookupName]
  exact ⟨hfind, claim_c2_replace_atomic [("a", Node.file 2 0)] [9, 9] 0 "a" [5] "out.asar" hfind⟩

/-- C6 counterexample: a path naming a Symlink entry does *not* fail
with NotFound — `_find_file` returns the link node, `extract_file` then
raises `KeyError("offset")`, and `replace_file` completes without any
error. -/
theorem claim_c6_counterexample :
    extractFileRes (Node.dir [("ln", Node.link "/t")]) [3] 0 "ln" =
      Except.error (CodecErr.keyErr "offset") ∧
    extractFileRes (Node.dir [("ln", Node.link "/t")]) [3] 0 "ln" ≠
      Except.error CodecErr.notFound ∧
    ∃ ops, replaceFileOps [("ln", Node.link "/t")] [3] 0 true "ln" [1] "o" =
      Except.ok ops := by
  have hf : findFile (Node.dir [("ln", Node.link "/t")]) "ln" = some (Node.link "/t") := by
    simp [findFile, resolveParts, splitPath, splitOnChar, lookupName]
  refine ⟨by simp [extractFileRes, hf], by simp [extractFileRes, hf], ?_⟩
  rw [replaceFileOps, hf]
  simp

/-- C6 (amended): a path that names a Directory or has no matching entry
is exactly a path on which `_find_file` returns `None`, and there both
`extract_file` and `replace_file` fail with NotFound (no other error kind
exists on that path).  A path that resolves to a Symlink or to an
unpacked File is, however, treated as found: `extract_file` fails with
`KeyError("offset")` rather than NotFound, and `replace_file` proceeds
and succeeds. -/
theorem claim_c6_notfound_behaviour (es : Entries) (arc : Bytes) (base : Nat)
    (p : String) (nd : Bytes) (out : String) :
    (findFile (Node.dir es) p = none ↔
      resolveParts (Node.dir es) (splitPath p) = none ∨
      ∃ sub, resolveParts (Node.dir es) (splitPath p) = some (Node.dir sub)) ∧
    (findFile (Node.dir es) p = none →
      extractFileRes (Node.dir es) arc base p = Except.error CodecErr.notFound ∧
      replaceFileOps es arc base true p nd out = Except.error CodecErr.notFound) ∧
    (∀ t, findFile (Node.dir es) p = some (Node.link t) →
      extractFileRes (Node.dir es) arc base p = Except.error (CodecErr.keyErr "offset") ∧
      ∃ ops, replaceFileOps es arc base true p nd out = Except.ok ops) ∧
    (∀ sz, findFile (Node.dir es) p = some (Node.unpacked sz) →
      extractFileRes (Node.dir es) arc base p = Except.error (CodecErr.keyErr "offset") ∧
      ∃ ops, replaceFileOps es arc base true p nd out = Except.ok ops) := by
  refine ⟨?_, ?_, ?_, ?_⟩
  · rw [findFile]
    cases hr : resolveParts (Node.dir es) (splitPath p) with
    | none => simp
    | some x =>
        cases x <;> simp
  · intro hp
    rw [extractFileRes, hp, replaceFileOps, hp]
    simp
  · intro t hp
    rw [extractFileRes, hp, replaceFileOps, hp]
    simp
  · intro sz hp
    rw [extractFileRes, hp, replaceFileOps, hp]
    simp

/-- Witness for the amended C6: a Directory path gives NotFound, a
Symlink path gives the missing-key error. -/
theorem claim_c6_notfound_behaviour_witness :
    extractFileRes (Node.dir [("d", Node.dir [])]) [] 0 "d" =
      Except.error CodecErr.notFound ∧
    extractFileRes (Node.dir [("ln", Node.link "x")]) [] 0 "ln" =
      Except.error (CodecErr.keyErr "offset") := by
  constructor
  · exact ((claim_c6_notfound_behaviour [("d", Node.dir [])] [] 0 "d" [] "o").2.1
      (by simp [findFile, resolveParts, splitPath, splitOnChar, lookupName])).1
  · exact ((claim_c6_notfound_behaviour [("ln", Node.link "x")] [] 0 "ln" [] "o").2.2.1 "x"
      (by simp [findFile, resolveParts, splitPath, splitOnChar, lookupName])).1

/-! ### Offset assignment: `_recompute_offsets` and `_write_entries`
factored through the flattened entry list -/

@[simp]
theorem flatten_nil (pre : String) : flatten pre [] = [] := by
  rw [flatten]

@[simp]
theorem flatten_cons_dir (pre name : String) (sub : Entries) (rest : Entries) :
    flatten pre ((name, Node.dir sub) :: rest) =
      flatten (joinPath pre name) sub ++ flatten pre rest := by
  rw [flatten]

@[simp]
theorem flatten_cons_file (pre name : String) (sz off : Nat) (rest : Entries) :
    flatten pre ((name, Node.file sz off) :: rest) =
      (joinPath pre name, Node.file sz off) :: flatten pre rest := by
  rw [flatten]
  all_goals intro _ h; cases h

@[simp]
theorem flatten_cons_unpacked (pre name : String) (sz : Nat) (rest : Entries) :
    flatten pre ((name, Node.unpacked sz) :: rest) =
      (joinPath pre name, Node.unpacked sz) :: flatten pre rest := by
  rw [flatten]
  all_goals intro _ h; cases h

@[simp]
theorem flatten_cons_link (pre name t : String) (rest : Entries) :
    flatten pre ((name, Node.link t) :: rest) =
      (joinPath pre name, Node.link t) :: flatten pre rest := by
  rw [flatten]
  all_goals intro _ h; cases h

@[simp]
theorem itemsWeight_nil (rp : String) (ns : Nat) : itemsWeight rp ns [] = 0 := rfl

@[simp]
theorem itemsWeight_cons_file (rp : String) (ns : Nat) (p : String) (sz off : Nat)
    (rest : List (String × Node)) :
    itemsWeight rp ns ((p, Node.file sz off) :: rest) =
      (if p = rp then ns else sz) + itemsWeight rp ns rest := rfl

@[simp]
theorem itemsWeight_cons_unpacked (rp : String) (ns : Nat) (p : String) (sz : Nat)
    (rest : List (String × Node)) :
    itemsWeight rp ns ((p, Node.unpacked sz) :: rest) = itemsWeight rp ns rest := rfl

@[simp]
theorem itemsWeight_cons_link (rp : String) (ns : Nat) (p t : String)
    (rest : List (String × Node)) :
    itemsWeight rp ns ((p, Node.link t) :: rest) = itemsWeight rp ns rest := rfl

@[simp]
theorem itemsWeight_cons_dir (rp : String) (ns : Nat) (p : String) (sub : Entries)
    (rest : List (String × Node)) :
    itemsWeight rp ns ((p, Node.dir sub) :: rest) = itemsWeight rp ns rest := rfl

@[simp]
theorem assignItems_nil (rp : String) (ns c : Nat) : assignItems rp ns c [] = [] := rfl

@[simp]
theorem assignItems_cons_file (rp : String) (ns c : Nat) (p : String) (sz off : Nat)
    (rest : List (String × Node)) :
    assignItems rp ns c ((p, Node.file sz off) :: rest) =
      (p, Node.file (if p = rp then ns else sz) c) ::
        assignItems rp ns (c + if p = rp then ns else sz) rest := rfl

@[simp]
theorem assignItems_cons_unpacked (rp : String) (ns c : Nat) (p : String) (sz : Nat)
    (rest : List (String × Node)) :
    assignItems rp ns c ((p, Node.unpacked sz) :: rest) =
      (p, Node.unpacked sz) :: assignItems rp ns c rest := rfl

@[simp]
theorem assignItems_cons_link (rp : String) (ns c : Nat) (p t : String)
    (rest : List (String × Node)) :
    assignItems rp ns c ((p, Node.link t) :: rest) =
      (p, Node.link t) :: assignItems rp ns c rest := rfl

@[simp]
theorem assignItems_cons_dir (rp : String) (ns c : Nat) (p : String) (sub : Entries)
    (rest : List (String × Node)) :
    assignItems rp ns c ((p, Node.dir sub) :: rest) =
      (p, Node.dir sub) :: assignItems rp ns c rest := rfl

theorem flatten_append (pre : String) (a b : Entries) :
    flatten pre (a ++ b) = flatten pre a ++ flatten pre b := by
  induction a with
  | nil => simp
  | cons x rest ih =>
      obtain ⟨name, n⟩ := x
      cases n <;> simp [ih]

theorem itemsWeight_append (rp : String) (ns : Nat) (a b : List (String × Node)) :
    itemsWeight rp ns (a ++ b) = itemsWeight rp ns a + itemsWeight rp ns b := by
  induction a with
  | nil => simp [itemsWeight]
  | cons x rest ih =>
      obtain ⟨p, n⟩ := x
      cases n <;> (simp [itemsWeight, ih]; try omega)

theorem assignItems_append (rp : String) (ns : Nat) (a b : List (String × Node)) :
    ∀ c, assignItems rp ns c (a ++ b) =
      assignItems rp ns c a ++ assignItems rp ns (c + itemsWeight rp ns a) b := by
  induction a with
  | nil => intro c; simp [assignItems, itemsWeight]
  | cons x rest ih =>
      intro c
      obtain ⟨p, n⟩ := x
      cases n with
      | file sz off =>
          simp only [List.cons_append, assignItems, itemsWeight, List.cons.injEq, true_and]
          rw [← Nat.add_assoc]
          exact ih _
      | unpacked sz =>
          simp only [List.cons_append, assignItems, itemsWeight, List.cons.injEq, true_and]
          exact ih c
      | link t =>
          simp only [List.cons_append, assignItems, itemsWeight, List.cons.injEq, true_and]
          exact ih c
      | dir sub =>
          simp only [List.cons_append, assignItems, itemsWeight, List.cons.injEq, true_and]
          exact ih c

theorem assignItems_split (rp : String) (ns c : Nat) (A B : List (String × Node))
    (p : String) (s o : Nat) :
    assignItems rp ns c (A ++ (p, Node.file s o) :: B) =
      assignItems rp ns c A ++
        (p, Node.file (if p = rp then ns else s) (c + itemsWeight rp ns A)) ::
        assignItems rp ns (c + itemsWeight rp ns A + if p = rp then ns else s) B := by
  rw [assignItems_append]
  simp [assignItems]

theorem recomputeOffsets_spec (es : Entries) (rp : String) (ns c : Nat) (pre : String) :
    (recomputeOffsets es rp ns c pre).2 = c + itemsWeight rp ns (flatten pre es) ∧
    flatten pre (recomputeOffsets es rp ns c pre).1 =
      assignItems rp ns c (flatten pre es) := by
  induction es, rp, ns, c, pre using recomputeOffsets.induct with
  | case1 rp ns c pre =>
      simp [recomputeOffsets, flatten, itemsWeight, assignItems]
  | case2 name sub rest rp ns c pre ihsub ihrest =>
      simp only [recomputeOffsets]
      constructor
      · rw [ihrest.1, ihsub.1, flatten_cons_dir, itemsWeight_append]
        omega
      · rw [flatten_cons_dir, ihsub.2, ihrest.2, ihsub.1, flatten_cons_dir,
          assignItems_append]
  | case3 name sz off rest rp ns c pre ih =>
      have hd : (if h : joinPath pre name = rp then ns else sz) =
          (if joinPath pre name = rp then ns else sz) := by
        by_cases h : joinPath pre name = rp <;> simp [h]
      rw [hd] at ih
      simp only [recomputeOffsets]
      constructor
      · rw [ih.1, flatten_cons_file, itemsWeight_cons_file]
        omega
      · rw [flatten_cons_file, ih.2, flatten_cons_file, assignItems_cons_file]
  | case4 name n rest rp ns c pre hnd hnf ih =>
      cases n with
      | dir sub => exact absurd rfl (hnd sub)
      | file sz off => exact absurd rfl (hnf sz off)
      | unpacked sz =>
          simp only [recomputeOffsets]
          constructor
          · rw [ih.1, flatten_cons_unpacked, itemsWeight_cons_unpacked]
          · rw [flatten_cons_unpacked, ih.2, flatten_cons_unpacked,
              assignItems_cons_unpacked]
      | link t =>
          simp only [recomputeOffsets]
          constructor
          · rw [ih.1, flatten_cons_link, itemsWeight_cons_link]
          · rw [flatten_cons_link, ih.2, flatten_cons_link, assignItems_cons_link]

/-! ### `_write_entries` as chunk concatenation, and byte-level layout -/

@[simp]
theorem writeEntries_nil (arc : Bytes) (base : Nat) (rp : String) (nd : Bytes)
    (pre : String) : writeEntries arc base [] rp nd pre = [] := by
  rw [writeEntries]

@[simp]
theorem writeEntries_cons_dir (arc : Bytes) (base : Nat) (name : String)
    (sub rest : Entries) (rp : String) (nd : Bytes) (pre : String) :
    writeEntries arc base ((name, Node.dir sub) :: rest) rp nd pre =
      writeEntries arc base sub rp nd (joinPath pre name) ++
        writeEntries arc base rest rp nd pre := by
  rw [writeEntries]

@[simp]
theorem writeEntries_cons_file (arc : Bytes) (base : Nat) (name : String)
    (sz off : Nat) (rest : Entries) (rp : String) (nd : Bytes) (pre : String) :
    writeEntries arc base ((name, Node.file sz off) :: rest) rp nd pre =
      (if joinPath pre name = rp then nd else slice arc (base + off) sz) ++
        writeEntries arc base rest rp nd pre := by
  rw [writeEntries]

@[simp]
theorem writeEntries_cons_unpacked (arc : Bytes) (base : Nat) (name : String)
    (sz : Nat) (rest : Entries) (rp : String) (nd : Bytes) (pre : String) :
    writeEntries arc base ((name, Node.unpacked sz) :: rest) rp nd pre =
      writeEntries arc base rest rp nd pre := by
  rw [writeEntries]
  all_goals (intros; simp_all)

@[simp]
theorem writeEntries_cons_link (arc : Bytes) (base : Nat) (name t : String)
    (rest : Entries) (rp : String) (nd : Bytes) (pre : String) :
    writeEntries arc base ((name, Node.link t) :: rest) rp nd pre =
      writeEntries arc base rest rp nd pre := by
  rw [writeEntries]
  all_goals (intros; simp_all)

@[simp]
theorem chunkOf_file (arc : Bytes) (base : Nat) (rp : String) (nd : Bytes)
    (p : String) (sz off : Nat) :
    chunkOf arc base rp nd (p, Node.file sz off) =
      if p = rp then nd else slice arc (base + off) sz := rfl

@[simp]
theorem chunkOf_unpacked (arc : Bytes) (base : Nat) (rp : String) (nd : Bytes)
    (p : String) (sz : Nat) :
    chunkOf arc base rp nd (p, Node.unpacked sz) = [] := rfl

@[simp]
theorem chunkOf_link (arc : Bytes) (base : Nat) (rp : String) (nd : Bytes)
    (p t : String) : chunkOf arc base rp nd (p, Node.link t) = [] := rfl

@[simp]
theorem chunkOf_dir (arc : Bytes) (base : Nat) (rp : String) (nd : Bytes)
    (p : String) (sub : Entries) :
    chunkOf arc base rp nd (p, Node.dir sub) = [] := rfl

@[simp]
theorem chunksOf_nil (arc : Bytes) (base : Nat) (rp : String) (nd : Bytes) :
    chunksOf arc base rp nd [] = [] := rfl

@[simp]
theorem chunksOf_cons (arc : Bytes) (base : Nat) (rp : String) (nd : Bytes)
    (x : String × Node) (items : List (String × Node)) :
    chunksOf arc base rp nd (x :: items) =
      chunkOf arc base rp nd x ++ chunksOf arc base rp nd items := rfl

theorem chunksOf_append (arc : Bytes) (base : Nat) (rp : String) (nd : Bytes)
    (a b : List (String × Node)) :
    chunksOf arc base rp nd (a ++ b) =
      chunksOf arc base rp nd a ++ chunksOf arc base rp nd b := by
  simp [chunksOf, List.flatten_append]

theorem writeEntries_eq_chunks (arc : Bytes) (base : Nat) (es : Entries)
    (rp : String) (nd : Bytes) (pre : String) :
    writeEntries arc base es rp nd pre = chunksOf arc base rp nd (flatten pre es) := by
  induction es, rp, nd, pre using writeEntries.induct arc base with
  | case1 rp nd pre => simp
  | case2 name sub rest rp nd pre ih1 ih2 => simp [ih1, ih2, chunksOf_append]
  | case3 name sz off rest rp nd pre ih => simp [ih]
  | case4 name n rest rp nd pre hnd hnf ih =>
      cases n with
      | dir sub => exact absurd rfl (hnd sub)
      | file sz off => exact absurd rfl (hnf sz off)
      | unpacked sz => simp [ih]
      | link t => simp [ih]

theorem slice_length (l : Bytes) (pos n : Nat) (h : pos + n ≤ l.length) :
    (slice l pos n).length = n := by
  simp only [slice, List.length_take, List.length_drop]
  omega

theorem chunksOf_length (arc : Bytes) (base : Nat) (rp : String) (nd : Bytes)
    (items : List (String × Node))
    (hb : ∀ x ∈ items, inBoundsB arc.length base x = true) :
    (chunksOf arc base rp nd items).length = itemsWeight rp nd.length items := by
  induction items with
  | nil => rfl
  | cons x rest ih =>
      obtain ⟨p, n⟩ := x
      have hx := hb _ (List.mem_cons_self _ _)
      have hrest : ∀ y ∈ rest, inBoundsB arc.length base y = true :=
        fun y hy => hb y (List.mem_cons_of_mem _ hy)
      cases n with
      | file sz off =>
          simp only [chunksOf_cons, chunkOf_file, List.length_append, ih hrest,
            itemsWeight_cons_file]
          by_cases hp : p = rp
          · simp [hp]
          · have hbound : base + off + sz ≤ arc.length := by
              have := of_decide_eq_true hx
              exact this
            rw [if_neg hp, if_neg hp, slice_length arc (base + off) sz (by omega)]
      | unpacked sz => simpa using ih hrest
      | link t => simpa using ih hrest
      | dir sub => simpa using ih hrest

theorem take_append_of_length (C D : Bytes) (n : Nat) (h : C.length = n) :
    List.take n (C ++ D) = C := by
  subst h
  exact List.take_left C D

theorem chunks_extract (arc : Bytes) (base : Nat) (rp : String) (nd : Bytes)
    (A B : List (String × Node)) (p : String) (s o : Nat)
    (hp : p ≠ rp)
    (hbA : ∀ x ∈ A, inBoundsB arc.length base x = true)
    (hbx : base + o + s ≤ arc.length) :
    slice (chunksOf arc base rp nd (A ++ (p, Node.file s o) :: B))
      (itemsWeight rp nd.length A) s = slice arc (base + o) s := by
  have hxlen : (slice arc (base + o) s).length = s :=
    slice_length arc (base + o) s (by omega)
  rw [chunksOf_append, chunksOf_cons, chunkOf_file, if_neg hp]
  show (List.drop (itemsWeight rp nd.length A)
      (chunksOf arc base rp nd A ++
        (slice arc (base + o) s ++ chunksOf arc base rp nd B))).take s =
    slice arc (base + o) s
  rw [← chunksOf_length arc base rp nd A hbA, List.drop_left]
  exact take_append_of_length _ _ _ hxlen

/-! ### What `replace` leaves unchanged in the header, and C7 -/

@[simp]
theorem scrubVar_nil (rp pre : String) : scrubVar rp pre [] = [] := by
  rw [scrubVar]

@[simp]
theorem scrubVar_cons_dir (rp pre name : String) (sub rest : Entries) :
    scrubVar rp pre ((name, Node.dir sub) :: rest) =
      (name, Node.dir (scrubVar rp (joinPath pre name) sub)) :: scrubVar rp pre rest := by
  rw [scrubVar]

@[simp]
theorem scrubVar_cons_file (rp pre name : String) (sz off : Nat) (rest : Entries) :
    scrubVar rp pre ((name, Node.file sz off) :: rest) =
      (name, Node.file (if joinPath pre name = rp then 0 else sz) 0) ::
        scrubVar rp pre rest := by
  rw [scrubVar]

@[simp]
theorem scrubVar_cons_unpacked (rp pre name : String) (sz : Nat) (rest : Entries) :
    scrubVar rp pre ((name, Node.unpacked sz) :: rest) =
      (name, Node.unpacked sz) :: scrubVar rp pre rest := by
  rw [scrubVar]
  all_goals (intros; simp_all)

@[simp]
theorem scrubVar_cons_link (rp pre name t : String) (rest : Entries) :
    scrubVar rp pre ((name, Node.link t) :: rest) =
      (name, Node.link t) :: scrubVar rp pre rest := by
  rw [scrubVar]
  all_goals (intros; simp_all)

theorem scrubVar_recompute (es : Entries) (rp : String) (ns c : Nat) (pre : String) :
    scrubVar rp pre (recomputeOffsets es rp ns c pre).1 = scrubVar rp pre es := by
  induction es, rp, ns, c, pre using recomputeOffsets.induct with
  | case1 rp ns c pre => simp [recomputeOffsets]
  | case2 name sub rest rp ns c pre ihsub ihrest =>
      simp only [recomputeOffsets, scrubVar_cons_dir, ihsub, ihrest]
  | case3 name sz off rest rp ns c pre ih =>
      by_cases h : joinPath pre name = rp
      · rw [dif_pos h] at ih
        simp only [recomputeOffsets, if_pos h, scrubVar_cons_file, ih]
      · rw [dif_neg h] at ih
        simp only [recomputeOffsets, if_neg h, scrubVar_cons_file, ih]
  | case4 name n rest rp ns c pre hnd hnf ih =>
      cases n with
      | dir sub => exact absurd rfl (hnd sub)
      | file sz off => exact absurd rfl (hnf sz off)
      | unpacked sz => simp only [recomputeOffsets, scrubVar_cons_unpacked, ih]
      | link t => simp only [recomputeOffsets, scrubVar_cons_link, ih]

@[simp]
theorem packedOfItems_nil : packedOfItems [] = [] := rfl

@[simp]
theorem packedOfItems_cons_file (p : String) (sz off : Nat)
    (rest : List (String × Node)) :
    packedOfItems ((p, Node.file sz off) :: rest) = (p, sz, off) :: packedOfItems rest := rfl

@[simp]
theorem packedOfItems_cons_unpacked (p : String) (sz : Nat)
    (rest : List (String × Node)) :
    packedOfItems ((p, Node.unpacked sz) :: rest) = packedOfItems rest := rfl

@[simp]
theorem packedOfItems_cons_link (p t : String) (rest : List (String × Node)) :
    packedOfItems ((p, Node.link t) :: rest) = packedOfItems rest := rfl

@[simp]
theorem packedOfItems_cons_dir (p : String) (sub : Entries)
    (rest : List (String × Node)) :
    packedOfItems ((p, Node.dir sub) :: rest) = packedOfItems rest := rfl

theorem contiguousFrom_cons (c : Nat) (p : String) (sz off : Nat)
    (l : List (String × Nat × Nat)) :
    contiguousFrom c ((p, sz, off) :: l) ↔ off = c ∧ contiguousFrom (c + sz) l :=
  Iff.rfl

theorem contiguousFrom_assign (rp : String) (ns : Nat)
    (items : List (String × Node)) :
    ∀ c, contiguousFrom c (packedOfItems (assignItems rp ns c items)) := by
  induction items with
  | nil => intro c; exact trivial
  | cons x rest ih =>
      intro c
      obtain ⟨p, n⟩ := x
      cases n with
      | file sz off =>
          rw [assignItems_cons_file, packedOfItems_cons_file, contiguousFrom_cons]
          exact ⟨rfl, ih _⟩
      | unpacked sz => rw [assignItems_cons_unpacked, packedOfItems_cons_unpacked]; exact ih c
      | link t => rw [assignItems_cons_link, packedOfItems_cons_link]; exact ih c
      | dir sub => rw [assignItems_cons_dir, packedOfItems_cons_dir]; exact ih c

theorem contiguousFrom_le (c : Nat) (l : List (String × Nat × Nat))
    (h : contiguousFrom c l) : ∀ x ∈ l, c ≤ x.2.2 := by
  induction l generalizing c with
  | nil => intro x hx; cases hx
  | cons y rest ih =>
      obtain ⟨p, sz, off⟩ := y
      rw [contiguousFrom_cons] at h
      obtain ⟨h1, h2⟩ := h
      intro x hx
      rcases List.mem_cons.mp hx with hx | hx
      · subst hx
        show c ≤ off
        omega
      · have := ih (c + sz) h2 x hx
        omega

theorem contiguousFrom_pairwise (c : Nat) (l : List (String × Nat × Nat))
    (h : contiguousFrom c l) :
    l.Pairwise fun a b => a.2.2 + a.2.1 ≤ b.2.2 := by
  induction l generalizing c with
  | nil => exact List.Pairwise.nil
  | cons y rest ih =>
      obtain ⟨p, sz, off⟩ := y
      rw [contiguousFrom_cons] at h
      refine List.Pairwise.cons ?_ (ih (c + sz) h.2)
      intro b hb
      have hle := contiguousFrom_le (c + sz) rest h.2 b hb
      have h1 : off = c := h.1
      show off + sz ≤ b.2.2
      omega

/-- C7 counterexample: an archive path that resolves to an *unpacked*
File (recorded without an `offset` field) is left with its original
`size` by `_recompute_offsets` — the rebuilt header is identical to the
old one, so the size is not set to `len(new_bytes)` (here 9 ≠ 5). -/
theorem claim_c7_counterexample :
    findFile (Node.dir [("u", Node.unpacked 5)]) "u" = some (Node.unpacked 5) ∧
    (recomputeOffsets [("u", Node.unpacked 5)] "u" 9 0 "").1 =
      [("u", Node.unpacked 5)] ∧
    findFile (Node.dir (recomputeOffsets [("u", Node.unpacked 5)] "u" 9 0 "").1) "u" =
      some (Node.unpacked 5) ∧
    Node.unpacked 5 ≠ Node.unpacked 9 := by
  have h1 : findFile (Node.dir [("u", Node.unpacked 5)]) "u" = some (Node.unpacked 5) := by
    simp [findFile, resolveParts, splitPath, splitOnChar, lookupName]
  have h2 : (recomputeOffsets [("u", Node.unpacked 5)] "u" 9 0 "").1 =
      [("u", Node.unpacked 5)] := by
    simp [recomputeOffsets]
  refine ⟨h1, h2, ?_, by simp⟩
  rw [h2]
  exact h1

/-- C7 (amended): for a target that resolves to a *packed* File (one
recorded with an `offset` field), `replace` builds a new header in which
the target's size is `len(new_bytes)` (the original header is not
mutated — `recomputeOffsets` returns a fresh entry list); a target File
recorded without an `offset` keeps its original size. -/
theorem claim_c7_replace_sets_size (es : Entries) (rp : String) (nd : Bytes)
    (s o : Nat)
    (hmem : (rp, Node.file s o) ∈ flatten "" es) :
    ∃ o', (rp, Node.file nd.length o') ∈
      flatten "" (recomputeOffsets es rp nd.length 0 "").1 := by
  obtain ⟨A, B, hAB⟩ := List.append_of_mem hmem
  have hspec := (recomputeOffsets_spec es rp nd.length 0 "").2
  rw [hspec, hAB, assignItems_split]
  refine ⟨0 + itemsWeight rp nd.length A, ?_⟩
  rw [if_pos rfl]
  exact List.mem_append_right _ (List.mem_cons_self _ _)

/-- Witness for the amended C7: replacing the 13-byte `hello.txt` of the
two-file example archive with 9 bytes yields a header recording size 9. -/
theorem claim_c7_replace_sets_size_witness :
    ("hello.txt", Node.file 13 0) ∈
      flatten "" [("hello.txt", Node.file 13 0),
        ("sub", Node.dir [("world.txt", Node.file 12 13)])] ∧
    ∃ o', ("hello.txt", Node.file 9 o') ∈
      flatten "" (recomputeOffsets [("hello.txt", Node.file 13 0),
        ("sub", Node.dir [("world.txt", Node.file 12 13)])]
        "hello.txt" 9 0 "").1 := by
  have hmem : ("hello.txt", Node.file 13 0) ∈
      flatten "" [("hello.txt", Node.file 13 0),
        ("sub", Node.dir [("world.txt", Node.file 12 13)])] := by
    simp [joinPath]
  have h9 : (9 : Nat) = ([0, 0, 0, 0, 0, 0, 0, 0, 0] : Bytes).length := rfl
  refine ⟨hmem, ?_⟩
  rw [h9]
  exact claim_c7_replace_sets_size _ "hello.txt" [0, 0, 0, 0, 0, 0, 0, 0, 0] 13 0 hmem

/-! ### Packer: `_dir_to_dict` factored through the canonical
(recursively sorted) disk tree -/

@[simp]
theorem canonMap_nil : canonMap [] = [] := by rw [canonMap]

@[simp]
theorem canonMap_cons (x : String × FS) (rest : List (String × FS)) :
    canonMap (x :: rest) = (x.1, canonFS x.2) :: canonMap rest := by
  obtain ⟨name, f⟩ := x
  rw [canonMap]

@[simp]
theorem canonFS_file (d : Bytes) : canonFS (FS.file d) = FS.file d := by rw [canonFS]

@[simp]
theorem canonFS_symlink (t : String) : canonFS (FS.symlink t) = FS.symlink t := by
  rw [canonFS]

@[simp]
theorem canonFS_dir (es : List (String × FS)) :
    canonFS (FS.dir es) = FS.dir (sortByName (canonMap es)) := by rw [canonFS]

theorem canonMap_orderedInsert (a : String × FS) (l : List (String × FS)) :
    canonMap (List.orderedInsert (fun x y => x.1 ≤ y.1) a l) =
      List.orderedInsert (fun x y => x.1 ≤ y.1) (a.1, canonFS a.2) (canonMap l) := by
  induction l with
  | nil => simp [List.orderedInsert]
  | cons b rest ih =>
      simp only [List.orderedInsert, canonMap_cons]
      by_cases h : a.1 ≤ b.1
      · rw [if_pos h, if_pos h]
        simp
      · rw [if_neg h, if_neg h, canonMap_cons, ih]

theorem sortByName_canonMap (l : List (String × FS)) :
    sortByName (canonMap l) = canonMap (sortByName l) := by
  induction l with
  | nil => simp [sortByName]
  | cons a rest ih =>
      simp only [canonMap_cons, sortByName, List.insertionSort]
      rw [show List.insertionSort (fun x y => x.1 ≤ y.1) (canonMap rest) =
          sortByName (canonMap rest) from rfl, ih]
      exact (canonMap_orderedInsert a (List.insertionSort _ rest)).symm

theorem packEntries_eq_plain (es : List (String × FS)) (c : Nat) :
    packEntries es c = packPlain (canonMap es) c := by
  induction es, c using packEntries.induct with
  | case1 c => simp [packEntries, packPlain]
  | case2 name t rest c ih => simp [packEntries, packPlain, ih]
  | case3 name sub rest c ihsub ihrest =>
      rw [ihsub] at ihrest
      simp only [packEntries, canonMap_cons, canonFS_dir, packPlain, ihsub, ihrest,
        sortByName_canonMap]
  | case4 name d rest c ih => simp [packEntries, packPlain, ih]

theorem assignFS_append (a b : List (String × Bytes)) :
    ∀ c, assignFS c (a ++ b) =
      assignFS c a ++ assignFS (c + (a.map fun x => x.2.length).sum) b := by
  induction a with
  | nil => intro c; simp [assignFS]
  | cons x rest ih =>
      intro c
      obtain ⟨p, d⟩ := x
      simp only [List.cons_append, assignFS, List.map_cons, List.sum_cons,
        List.cons.injEq, true_and]
      rw [show c + (d.length + (List.map (fun x => List.length x.2) rest).sum) =
        c + d.length + (List.map (fun x => List.length x.2) rest).sum by omega]
      exact ih _

theorem packedOfItems_append (a b : List (String × Node)) :
    packedOfItems (a ++ b) = packedOfItems a ++ packedOfItems b := by
  simp [packedOfItems, List.filterMap_append]

@[simp]
theorem linkItems_nil (pre : String) : linkItems pre [] = [] := by simp [linkItems]

@[simp]
theorem linkItems_cons_dir (pre name : String) (sub rest : Entries) :
    linkItems pre ((name, Node.dir sub) :: rest) =
      linkItems (joinPath pre name) sub ++ linkItems pre rest := by
  simp [linkItems, List.filterMap_append]

@[simp]
theorem linkItems_cons_file (pre name : String) (sz off : Nat) (rest : Entries) :
    linkItems pre ((name, Node.file sz off) :: rest) = linkItems pre rest := by
  simp [linkItems]

@[simp]
theorem linkItems_cons_unpacked (pre name : String) (sz : Nat) (rest : Entries) :
    linkItems pre ((name, Node.unpacked sz) :: rest) = linkItems pre rest := by
  simp [linkItems]

@[simp]
theorem linkItems_cons_link (pre name t : String) (rest : Entries) :
    linkItems pre ((name, Node.link t) :: rest) =
      (joinPath pre name, t) :: linkItems pre rest := by
  simp [linkItems]

@[simp]
theorem fsFiles_nil (pre : String) : fsFiles pre [] = [] := by rw [fsFiles]

@[simp]
theorem fsFiles_cons_dir (pre name : String) (sub rest : List (String × FS)) :
    fsFiles pre ((name, FS.dir sub) :: rest) =
      fsFiles (joinPath pre name) sub ++ fsFiles pre rest := by
  rw [fsFiles]

@[simp]
theorem fsFiles_cons_file (pre name : String) (d : Bytes) (rest : List (String × FS)) :
    fsFiles pre ((name, FS.file d) :: rest) =
      (joinPath pre name, d) :: fsFiles pre rest := by
  rw [fsFiles]

@[simp]
theorem fsFiles_cons_symlink (pre name t : String) (rest : List (String × FS)) :
    fsFiles pre ((name, FS.symlink t) :: rest) = fsFiles pre rest := by
  rw [fsFiles]

@[simp]
theorem fsLinks_nil (pre : String) : fsLinks pre [] = [] := by rw [fsLinks]

@[simp]
theorem fsLinks_cons_dir (pre name : String) (sub rest : List (String × FS)) :
    fsLinks pre ((name, FS.dir sub) :: rest) =
      fsLinks (joinPath pre name) sub ++ fsLinks pre rest := by
  rw [fsLinks]

@[simp]
theorem fsLinks_cons_symlink (pre name t : String) (rest : List (String × FS)) :
    fsLinks pre ((name, FS.symlink t) :: rest) =
      (joinPath pre name, t) :: fsLinks pre rest := by
  rw [fsLinks]

@[simp]
theorem fsLinks_cons_file (pre name : String) (d : Bytes) (rest : List (String × FS)) :
    fsLinks pre ((name, FS.file d) :: rest) = fsLinks pre rest := by
  rw [fsLinks]

theorem packPlain_spec (es : List (String × FS)) (c : Nat) (pre : String) :
    (packPlain es c).2.1 = c + ((fsFiles pre es).map fun x => x.2.length).sum ∧
    packedOfItems (flatten pre (packPlain es c).1) = assignFS c (fsFiles pre es) ∧
    (packPlain es c).2.2 = (fsFiles pre es).map Prod.snd ∧
    linkItems pre (packPlain es c).1 = fsLinks pre es := by
  induction es, c using packPlain.induct generalizing pre with
  | case1 c =>
      simp [packPlain, assignFS]
  | case2 name t rest c ih =>
      have h := ih pre
      simp only [packPlain, fsFiles_cons_symlink, fsLinks_cons_symlink,
        flatten_cons_link, packedOfItems_cons_link, linkItems_cons_link]
      exact ⟨h.1, h.2.1, h.2.2.1, by rw [h.2.2.2]⟩
  | case3 name sub rest c ihsub ihrest =>
      have hsub := ihsub (joinPath pre name)
      have hrest := ihrest pre
      simp only [packPlain, fsFiles_cons_dir, fsLinks_cons_dir, flatten_cons_dir,
        linkItems_cons_dir]
      refine ⟨?_, ?_, ?_, ?_⟩
      · rw [hrest.1, hsub.1, List.map_append, List.sum_append]
        omega
      · rw [packedOfItems_append, hsub.2.1, hrest.2.1, hsub.1, assignFS_append]
      · rw [hsub.2.2.1, hrest.2.2.1, List.map_append]
      · rw [hsub.2.2.2, hrest.2.2.2]
  | case4 name d rest c ih =>
      have h := ih pre
      simp only [packPlain, fsFiles_cons_file, fsLinks_cons_file, flatten_cons_file,
        packedOfItems_cons_file, linkItems_cons_file, List.map_cons, List.sum_cons]
      refine ⟨?_, ?_, ?_, ?_⟩
      · rw [h.1]
        omega
      · simp only [assignFS]
        rw [h.2.1]
      · rw [h.2.2.1]
      · rw [h.2.2.2]

theorem contiguousFrom_assignFS (l : List (String × Bytes)) :
    ∀ c, contiguousFrom c (assignFS c l) := by
  induction l with
  | nil => intro c; exact trivial
  | cons x rest ih =>
      intro c
      obtain ⟨p, d⟩ := x
      rw [assignFS, contiguousFrom_cons]
      exact ⟨rfl, ih _⟩

theorem compress_packedItems (es : List (String × FS)) :
    packedItems "" (packEntries (sortByName es) 0).1 =
      assignFS 0 (fsFiles "" (canonList es)) := by
  rw [packedItems, packEntries_eq_plain, ← sortByName_canonMap]
  exact (packPlain_spec (sortByName (canonMap es)) 0 "").2.1

/-- C3: in a freshly packed archive (the header `compress` builds) and in
a freshly patched archive (the header `replace_file` rebuilds via
`_recompute_offsets`), the packed Files in tree-walk order satisfy
`offset[0] = 0` and `offset[i+1] = offset[i] + size[i]`, and consequently
their data regions `[offset, offset+size)` are pairwise disjoint, ordered
and gapless. -/
theorem claim_c3_offsets_contiguous :
    (∀ es : List (String × FS),
      contiguousFrom 0 (packedItems "" (packEntries (sortByName es) 0).1) ∧
      (packedItems "" (packEntries (sortByName es) 0).1).Pairwise
        (fun a b => a.2.2 + a.2.1 ≤ b.2.2)) ∧
    (∀ (es : Entries) (rp : String) (ns : Nat),
      contiguousFrom 0 (packedItems "" (recomputeOffsets es rp ns 0 "").1) ∧
      (packedItems "" (recomputeOffsets es rp ns 0 "").1).Pairwise
        (fun a b => a.2.2 + a.2.1 ≤ b.2.2)) := by
  constructor
  · intro es
    rw [compress_packedItems]
    exact ⟨contiguousFrom_assignFS _ 0,
      contiguousFrom_pairwise 0 _ (contiguousFrom_assignFS _ 0)⟩
  · intro es rp ns
    have h : packedItems "" (recomputeOffsets es rp ns 0 "").1 =
        packedOfItems (assignItems rp ns 0 (flatten "" es)) := by
      rw [packedItems, (recomputeOffsets_spec es rp ns 0 "").2]
    rw [h]
    exact ⟨contiguousFrom_assign rp ns _ 0,
      contiguousFrom_pairwise 0 _ (contiguousFrom_assign rp ns _ 0)⟩

/-! ### Sorted iteration order and deterministic packing (C8) -/

instance : IsTotal (String × FS) (fun a b => a.1 ≤ b.1) :=
  ⟨fun a b => le_total a.1 b.1⟩

instance : IsTrans (String × FS) (fun a b => a.1 ≤ b.1) :=
  ⟨fun _ _ _ h1 h2 => le_trans h1 h2⟩

theorem chainLe_of_pairwise (l : List String) (h : l.Pairwise (· ≤ ·)) :
    chainLe l = true := by
  induction l with
  | nil => rfl
  | cons a rest ih =>
      cases rest with
      | nil => rfl
      | cons b rest2 =>
          rw [chainLe, if_pos (List.rel_of_pairwise_cons h (List.mem_cons_self b rest2))]
          exact ih h.of_cons

theorem sortByName_names_chainLe (l : List (String × FS)) :
    chainLe ((sortByName l).map Prod.fst) = true := by
  apply chainLe_of_pairwise
  exact List.pairwise_map.mpr
    (List.sorted_insertionSort (fun a b : String × FS => a.1 ≤ b.1) l)

@[simp]
theorem childrenSorted_nil : childrenSorted [] = true := by rw [childrenSorted]

@[simp]
theorem childrenSorted_cons_dir (name : String) (sub rest : Entries) :
    childrenSorted ((name, Node.dir sub) :: rest) =
      ((chainLe (sub.map Prod.fst) && childrenSorted sub) && childrenSorted rest) := by
  rw [childrenSorted]

@[simp]
theorem childrenSorted_cons_file (name : String) (sz off : Nat) (rest : Entries) :
    childrenSorted ((name, Node.file sz off) :: rest) = childrenSorted rest := by
  rw [childrenSorted]
  all_goals (intros; simp_all)

@[simp]
theorem childrenSorted_cons_unpacked (name : String) (sz : Nat) (rest : Entries) :
    childrenSorted ((name, Node.unpacked sz) :: rest) = childrenSorted rest := by
  rw [childrenSorted]
  all_goals (intros; simp_all)

@[simp]
theorem childrenSorted_cons_link (name t : String) (rest : Entries) :
    childrenSorted ((name, Node.link t) :: rest) = childrenSorted rest := by
  rw [childrenSorted]
  all_goals (intros; simp_all)

theorem packEntries_names (es : List (String × FS)) (c : Nat) :
    ((packEntries es c).1).map Prod.fst = es.map Prod.fst := by
  induction es, c using packEntries.induct with
  | case1 c => simp [packEntries]
  | case2 name t rest c ih => simp [packEntries, ih]
  | case3 name sub rest c ihsub ihrest => simp [packEntries, ihrest]
  | case4 name d rest c ih => simp [packEntries, ih]

theorem childrenSorted_packEntries (es : List (String × FS)) (c : Nat) :
    childrenSorted (packEntries es c).1 = true := by
  induction es, c using packEntries.induct with
  | case1 c => simp [packEntries]
  | case2 name t rest c ih => simp [packEntries, ih]
  | case3 name sub rest c ihsub ihrest =>
      simp only [packEntries, childrenSorted_cons_dir, ihsub, ihrest,
        packEntries_names, sortByName_names_chainLe, Bool.and_self, Bool.and_true]
  | case4 name d rest c ih => simp [packEntries, ih]

theorem compressHeader_canon (es : List (String × FS)) :
    compressHeader es = Node.dir (packPlain (canonList es) 0).1 := by
  rw [compressHeader, packEntries_eq_plain, ← sortByName_canonMap]
  rfl

theorem compressData_canon (es : List (String × FS)) :
    compressData es = ((fsFiles "" (canonList es)).map Prod.snd).flatten := by
  rw [compressData, packEntries_eq_plain, ← sortByName_canonMap]
  rw [(packPlain_spec (sortByName (canonMap es)) 0 "").2.2.1]
  rfl

/-- C8: `compress` visits each directory's entries in sorted-by-name
order (every level of the produced header is name-sorted), assigns each
regular file the running total of previously assigned sizes as its offset
(first file offset 0, gapless), and emits the encoded header followed by
every file's bytes concatenated in exactly that walk order; the whole
output is a function of the canonical (order-normalized) disk tree, so
repeated packing of unchanged input — in whatever order the OS enumerates
directories — is byte-identical. -/
theorem claim_c8_pack_deterministic (es : List (String × FS)) :
    treeSorted (packEntries (sortByName es) 0).1 = true ∧
    packedItems "" (packEntries (sortByName es) 0).1 =
      assignFS 0 (fsFiles "" (canonList es)) ∧
    contiguousFrom 0 (packedItems "" (packEntries (sortByName es) 0).1) ∧
    compressArchive es =
      headerFrame (headerJsonBytes (compressHeader es)) ++
        ((fsFiles "" (canonList es)).map Prod.snd).flatten ∧
    (∀ es2, canonList es = canonList es2 →
      compressArchive es = compressArchive es2) := by
  refine ⟨?_, compress_packedItems es, ?_, ?_, ?_⟩
  · rw [treeSorted, packEntries_names, sortByName_names_chainLe,
      childrenSorted_packEntries]
    rfl
  · rw [compress_packedItems]
    exact contiguousFrom_assignFS _ 0
  · rw [compressArchive, compressData_canon]
  · intro es2 hc
    have h1 : compressHeader es = compressHeader es2 := by
      rw [compressHeader_canon, compressHeader_canon, hc]
    have h2 : compressData es = compressData es2 := by
      rw [compressData_canon, compressData_canon, hc]
    rw [compressArchive, compressArchive, h1, h2]

/-- Witness for C8: two enumeration orders of the same two-file directory
produce byte-identical archives. -/
theorem claim_c8_pack_deterministic_witness :
    canonList [("b", FS.file [1]), ("a", FS.file [2])] =
      canonList [("a", FS.file [2]), ("b", FS.file [1])] ∧
    compressArchive [("b", FS.file [1]), ("a", FS.file [2])] =
      compressArchive [("a", FS.file [2]), ("b", FS.file [1])] := by
  have hc : canonList [("b", FS.file [1]), ("a", FS.file [2])] =
      canonList [("a", FS.file [2]), ("b", FS.file [1])] := by
    simp only [canonList, canonMap_cons, canonFS_file, canonMap_nil, sortByName,
      List.insertionSort, List.orderedInsert]
    rw [if_neg (by rw [String.le_iff_toList_le]; decide),
      if_pos (by rw [String.le_iff_toList_le]; decide)]
  exact ⟨hc, (claim_c8_pack_deterministic _).2.2.2.2 _ hc⟩

/-! ### C1: replace preserves every other file's bytes -/

/-- C1: after `replace_file` produces a new archive, any packed File
other than the target — `(p, size s, offset o)` in the original header,
with every packed region in bounds — appears in the new header with the
same size at some recomputed offset `o'`, and reading `s` bytes at
`new_base_offset + o'` from the new archive yields exactly the bytes read
at `base_offset + o` from the original archive; moreover the new header
differs from the old only in packed-file offsets and the target's size
(their `scrubVar` erasures are equal). -/
theorem claim_c1_replace_preserves_others
    (es : Entries) (arc : Bytes) (base : Nat) (rp : String) (nd : Bytes)
    (p : String) (s o : Nat)
    (hb : ∀ x ∈ flatten "" es, inBoundsB arc.length base x = true)
    (hmem : (p, Node.file s o) ∈ flatten "" es)
    (hne : p ≠ rp) :
    ∃ o', (p, Node.file s o') ∈ flatten "" (recomputeOffsets es rp nd.length 0 "").1 ∧
      slice (replaceArchiveBytes es arc base rp nd) (replaceBase es rp nd + o') s =
        slice arc (base + o) s ∧
      scrubVar rp "" (recomputeOffsets es rp nd.length 0 "").1 = scrubVar rp "" es := by
  obtain ⟨A, B, hAB⟩ := List.append_of_mem hmem
  have hbA : ∀ x ∈ A, inBoundsB arc.length base x = true := fun x hx =>
    hb x (by rw [hAB]; exact List.mem_append_left _ hx)
  have hbx : base + o + s ≤ arc.length := of_decide_eq_true (hb _ hmem)
  refine ⟨itemsWeight rp nd.length A, ?_, ?_, scrubVar_recompute es rp nd.length 0 ""⟩
  · rw [(recomputeOffsets_spec es rp nd.length 0 "").2, hAB, assignItems_split,
      if_neg hne]
    simp only [Nat.zero_add]
    exact List.mem_append_right _ (List.mem_cons_self _ _)
  · rw [replaceArchiveBytes, writeEntries_eq_chunks]
    have hhdr : (headerFrame (headerJsonBytes
        (Node.dir (recomputeOffsets es rp nd.length 0 "").1))).length =
        replaceBase es rp nd := by
      rw [headerFrame_length, replaceBase, roundUp_shift]
    rw [show replaceBase es rp nd + itemsWeight rp nd.length A =
        (headerFrame (headerJsonBytes
          (Node.dir (recomputeOffsets es rp nd.length 0 "").1))).length +
          itemsWeight rp nd.length A from by rw [hhdr]]
    rw [slice_shift, hAB]
    exact chunks_extract arc base rp nd A B p s o hne hbA hbx

/-- Witness for C1: replacing `hello.txt` (2 bytes) in a 5-byte data
region leaves `sub/world.txt` (3 bytes at offset 2) extractable with
identical bytes. -/
theorem claim_c1_replace_preserves_others_witness :
    (∀ x ∈ flatten "" [("hello.txt", Node.file 2 0),
        ("sub", Node.dir [("world.txt", Node.file 3 2)])],
      inBoundsB ([10, 11, 12, 13, 14] : Bytes).length 0 x = true) ∧
    ("sub/world.txt", Node.file 3 2) ∈ flatten ""
      [("hello.txt", Node.file 2 0),
        ("sub", Node.dir [("world.txt", Node.file 3 2)])] ∧
    ("sub/world.txt" : String) ≠ "hello.txt" ∧
    ∃ o', ("sub/world.txt", Node.file 3 o') ∈ flatten ""
        (recomputeOffsets [("hello.txt", Node.file 2 0),
          ("sub", Node.dir [("world.txt", Node.file 3 2)])] "hello.txt" 1 0 "").1 ∧
      slice (replaceArchiveBytes [("hello.txt", Node.file 2 0),
          ("sub", Node.dir [("world.txt", Node.file 3 2)])] [10, 11, 12, 13, 14] 0
          "hello.txt" [9])
        (replaceBase [("hello.txt", Node.file 2 0),
          ("sub", Node.dir [("world.txt", Node.file 3 2)])] "hello.txt" [9] + o') 3 =
        slice [10, 11, 12, 13, 14] (0 + 2) 3 ∧
      scrubVar "hello.txt" "" (recomputeOffsets [("hello.txt", Node.file 2 0),
        ("sub", Node.dir [("world.txt", Node.file 3 2)])] "hello.txt" 1 0 "").1 =
        scrubVar "hello.txt" "" [("hello.txt", Node.file 2 0),
          ("sub", Node.dir [("world.txt", Node.file 3 2)])] := by
  have hb : ∀ x ∈ flatten "" [("hello.txt", Node.file 2 0),
      ("sub", Node.dir [("world.txt", Node.file 3 2)])],
      inBoundsB ([10, 11, 12, 13, 14] : Bytes).length 0 x = true := by
    simp only [flatten_cons_file, flatten_cons_dir, flatten_nil, joinPath]
    decide
  have hmem : ("sub/world.txt", Node.file 3 2) ∈ flatten ""
      [("hello.txt", Node.file 2 0),
        ("sub", Node.dir [("world.txt", Node.file 3 2)])] := by
    simp [joinPath]
  have hne : ("sub/world.txt" : String) ≠ "hello.txt" := by decide
  exact ⟨hb, hmem, hne,
    claim_c1_replace_preserves_others _ [10, 11, 12, 13, 14] 0 "hello.txt" [9]
      "sub/world.txt" 3 2 hb hmem hne⟩

/-! ### C9: the batch patch orchestrator -/

theorem isPrefixOf_append_both (x s l : List Char) :
    (x ++ s).isPrefixOf (x ++ l) = s.isPrefixOf l := by
  induction x with
  | nil => rfl
  | cons a rest ih => simp [List.isPrefixOf, ih]

theorem underDir_append (d suffix : String) :
    underDir d (d ++ ("/" ++ suffix)) = true := by
  rw [underDir, String.data_append, String.data_append, String.data_append]
  rw [show d.data ++ ("/".data ++ suffix.data) =
    (d.data ++ "/".data) ++ suffix.data from by rw [List.append_assoc]]
  rw [show (d.data ++ "/".data).isPrefixOf ((d.data ++ "/".data) ++ suffix.data) =
    ([] : List Char).isPrefixOf suffix.data from by
      rw [← isPrefixOf_append_both (d.data ++ "/".data) [] suffix.data,
        List.append_nil]]
  simp [List.isPrefixOf]

theorem underDir_workingPath (tmpdir : String) :
    underDir tmpdir (workingPath tmpdir) = true := by
  rw [workingPath, show ("/working.asar" : String) = "/" ++ "working.asar" from rfl]
  exact underDir_append tmpdir "working.asar"

theorem underDir_workingTmp (tmpdir : String) :
    underDir tmpdir (tmpName (workingPath tmpdir)) = true := by
  rw [tmpName, workingPath, String.append_assoc,
    show ("/working.asar" : String) ++ ".tmp" = "/" ++ "working.asar.tmp" from rfl]
  exact underDir_append tmpdir "working.asar.tmp"

theorem applyFOp_untouched (st : FileSys) (op : FOp) (q : String)
    (h : ∀ r ∈ opTouches op, q ≠ r) : applyFOp st op q = st q := by
  cases op with
  | write p d =>
      have hq : q ≠ p := h p (by simp [opTouches])
      simp [applyFOp, hq]
  | rename s d =>
      have hq1 : q ≠ s := h s (by simp [opTouches])
      have hq2 : q ≠ d := h d (by simp [opTouches])
      simp [applyFOp, hq1, hq2]
  | mkdirp p => rfl

theorem applyFOps_untouched (ops : List FOp) (st : FileSys) (q : String)
    (h : ∀ op ∈ ops, ∀ r ∈ opTouches op, q ≠ r) : applyFOps st ops q = st q := by
  induction ops generalizing st with
  | nil => rfl
  | cons op rest ih =>
      rw [applyFOps, List.foldl_cons]
      rw [show List.foldl applyFOp (applyFOp st op) rest = applyFOps (applyFOp st op) rest
        from rfl]
      rw [ih (applyFOp st op) (fun o ho => h o (List.mem_cons_of_mem _ ho))]
      exact applyFOp_untouched st op q (h op (List.mem_cons_self _ _))

theorem patchStepsOps_targets (w : String) (stepFn : Nat → Option Bytes)
    (idxs : List Nat) :
    ∀ op ∈ (patchStepsOps w stepFn idxs).1, ∀ r ∈ opTouches op,
      r = w ∨ r = tmpName w := by
  induction idxs with
  | nil => intro op hop; cases hop
  | cons i rest ih =>
      intro op hop r hr
      rw [patchStepsOps] at hop
      cases hstep : stepFn i with
      | none => rw [hstep] at hop; cases hop
      | some b =>
          rw [hstep] at hop
          rcases List.mem_cons.mp hop with hop | hop
          · subst hop
            simp only [opTouches, List.mem_singleton] at hr
            subst hr
            exact Or.inr rfl
          rcases List.mem_cons.mp hop with hop | hop
          · subst hop
            simp only [opTouches, List.mem_cons, List.mem_singleton,
              List.not_mem_nil, or_false] at hr
            rcases hr with hr | hr
            · subst hr; exact Or.inr rfl
            · subst hr; exact Or.inl rfl
          · exact ih op hop r hr

theorem under_ne (tmpdir q r : String) (hq : underDir tmpdir q = false)
    (hr : underDir tmpdir r = true) : q ≠ r := by
  intro h
  rw [h, hr] at hq
  cases hq

/-- C9: `cmd_patch` validates that the source archive and every
replacement source exist before it performs any file-system operation
(a failed validation yields an empty operation trace); afterwards it works
only on the working copy inside the temporary directory, so if any step
fails, applying the executed trace changes neither the source archive nor
the destination archive; and only after every replacement succeeded does
it move the working file onto the destination — the final rename is the
sole operation touching the destination. -/
theorem claim_c9_patch_orchestrator (isFile : String → Bool) (plan : PatchPlan)
    (tmpdir : String) (srcBytes : Bytes) (stepFn : Nat → Option Bytes)
    (hsrc : underDir tmpdir plan.src = false)
    (hdst : underDir tmpdir plan.dst = false) :
    ((∃ e ∈ plan.files, isFile e.2 = false) →
      (cmdPatch isFile plan tmpdir srcBytes stepFn).1 = []) ∧
    ((cmdPatch isFile plan tmpdir srcBytes stepFn).2 = false →
      ∀ st : FileSys,
        applyFOps st (cmdPatch isFile plan tmpdir srcBytes stepFn).1 plan.src =
          st plan.src ∧
        applyFOps st (cmdPatch isFile plan tmpdir srcBytes stepFn).1 plan.dst =
          st plan.dst) ∧
    ((cmdPatch isFile plan tmpdir srcBytes stepFn).2 = true →
      ∃ pre, (cmdPatch isFile plan tmpdir srcBytes stepFn).1 =
        pre ++ [FOp.mkdirp (pparent plan.dst),
          FOp.rename (workingPath tmpdir) plan.dst] ∧
        ∀ st : FileSys,
          applyFOps st pre plan.src = st plan.src ∧
          applyFOps st pre plan.dst = st plan.dst) := by
  have htr : ∀ op ∈ FOp.write (workingPath tmpdir) srcBytes ::
      (patchStepsOps (workingPath tmpdir) stepFn (List.range plan.files.length)).1,
      ∀ r ∈ opTouches op, underDir tmpdir r = true := by
    intro op hop r hr
    rcases List.mem_cons.mp hop with hop | hop
    · subst hop
      simp only [opTouches, List.mem_singleton] at hr
      subst hr
      exact underDir_workingPath tmpdir
    · rcases patchStepsOps_targets (workingPath tmpdir) stepFn
        (List.range plan.files.length) op hop r hr with h | h
      · subst h; exact underDir_workingPath tmpdir
      · subst h; exact underDir_workingTmp tmpdir
  refine ⟨?_, ?_, ?_⟩
  · intro ⟨e, he, hmiss⟩
    rw [cmdPatch]
    by_cases h1 : isFile plan.src = false
    · rw [if_pos h1]
    · rw [if_neg h1]
      by_cases h2 : plan.files = []
      · rw [if_pos h2]
      · rw [if_neg h2]
        rw [if_pos (by
          rw [List.any_eq_true]
          exact ⟨e, he, by simp [hmiss]⟩)]
  · intro hfail st
    rw [cmdPatch] at hfail ⊢
    by_cases h1 : isFile plan.src = false
    · rw [if_pos h1]
      exact ⟨rfl, rfl⟩
    · rw [if_neg h1] at hfail ⊢
      by_cases h2 : plan.files = []
      · rw [if_pos h2]
        exact ⟨rfl, rfl⟩
      · rw [if_neg h2] at hfail ⊢
        by_cases h3 : plan.files.any (fun e => !isFile e.2) = true
        · rw [if_pos h3]
          exact ⟨rfl, rfl⟩
        · rw [if_neg h3] at hfail ⊢
          by_cases h4 : (patchStepsOps (workingPath tmpdir) stepFn
              (List.range plan.files.length)).2 = true
          · rw [if_pos h4] at hfail
            cases hfail
          · rw [if_neg h4]
            constructor
            · exact applyFOps_untouched _ st plan.src
                (fun op hop r hr => under_ne tmpdir plan.src r hsrc (htr op hop r hr))
            · exact applyFOps_untouched _ st plan.dst
                (fun op hop r hr => under_ne tmpdir plan.dst r hdst (htr op hop r hr))
  · intro hok
    rw [cmdPatch] at hok ⊢
    by_cases h1 : isFile plan.src = false
    · rw [if_pos h1] at hok
      cases hok
    · rw [if_neg h1] at hok ⊢
      by_cases h2 : plan.files = []
      · rw [if_pos h2] at hok
        cases hok
      · rw [if_neg h2] at hok ⊢
        by_cases h3 : plan.files.any (fun e => !isFile e.2) = true
        · rw [if_pos h3] at hok
          cases hok
        · rw [if_neg h3] at hok ⊢
          by_cases h4 : (patchStepsOps (workingPath tmpdir) stepFn
              (List.range plan.files.length)).2 = true
          · rw [if_pos h4]
            refine ⟨FOp.write (workingPath tmpdir) srcBytes ::
              (patchStepsOps (workingPath tmpdir) stepFn
                (List.range plan.files.length)).1,
              by rw [List.cons_append], fun st => ⟨?_, ?_⟩⟩
            · exact applyFOps_untouched _ st plan.src
                (fun op hop r hr => under_ne tmpdir plan.src r hsrc (htr op hop r hr))
            · exact applyFOps_untouched _ st plan.dst
                (fun op hop r hr => under_ne tmpdir plan.dst r hdst (htr op hop r hr))
          · rw [if_neg h4] at hok
            cases hok

/-- Witness for C9 at a concrete failing plan: validation passes, the
single replacement step fails, and the executed trace leaves the source
and destination archives untouched. -/
theorem claim_c9_patch_orchestrator_witness :
    underDir "/tmp/work" "/data/src.asar" = false ∧
    underDir "/tmp/work" "/data/dst.asar" = false ∧
    ∀ st : FileSys,
      applyFOps st (cmdPatch (fun _ => true)
        ⟨"/data/src.asar", "/data/dst.asar", [("a.txt", "/data/r.bin")]⟩
        "/tmp/work" [7] (fun _ => none)).1 "/data/src.asar" = st "/data/src.asar" := by
  have hsrc : underDir "/tmp/work" "/data/src.asar" = false := by decide
  have hdst : underDir "/tmp/work" "/data/dst.asar" = false := by decide
  refine ⟨hsrc, hdst, fun st => ?_⟩
  exact (((claim_c9_patch_orchestrator (fun _ => true)
    ⟨"/data/src.asar", "/data/dst.asar", [("a.txt", "/data/r.bin")]⟩
    "/tmp/work" [7] (fun _ => none) hsrc hdst).2.1) rfl st).1

/-! ### Path segment algebra for the symlink claims -/

theorem splitOnChar_ne_nil (p : Char → Bool) (l : List Char) :
    splitOnChar p l ≠ [] := by
  cases l with
  | nil => simp [splitOnChar]
  | cons c cs =>
      rw [splitOnChar]
      cases h : splitOnChar p cs with
      | nil => simp
      | cons s ss => by_cases hp : p c <;> simp [hp]

theorem splitOnChar_cons_sep (p : Char → Bool) (c : Char) (cs : List Char)
    (h : p c = true) : splitOnChar p (c :: cs) = [] :: splitOnChar p cs := by
  rw [splitOnChar]
  cases hr : splitOnChar p cs with
  | nil => exact absurd hr (splitOnChar_ne_nil p cs)
  | cons s ss =>
      show (if p c = true then [] :: s :: ss else (c :: s) :: ss) = [] :: s :: ss
      rw [if_pos h]

theorem splitOnChar_cons_nosep (p : Char → Bool) (a : Char) (as : List Char)
    (h : p a = false) :
    splitOnChar p (a :: as) =
      (a :: (splitOnChar p as).headD []) :: (splitOnChar p as).tail := by
  rw [splitOnChar]
  cases hr : splitOnChar p as with
  | nil => exact absurd hr (splitOnChar_ne_nil p as)
  | cons s ss =>
      show (if p a = true then [] :: s :: ss else (a :: s) :: ss) =
        (a :: (s :: ss).headD []) :: (s :: ss).tail
      rw [if_neg (by simp [h])]
      rfl

theorem splitOnChar_append_sep (p : Char → Bool) (x y : List Char) (c : Char)
    (hc : p c = true) :
    splitOnChar p (x ++ c :: y) = splitOnChar p x ++ splitOnChar p y := by
  induction x with
  | nil => rw [List.nil_append, splitOnChar_cons_sep p c y hc]; rfl
  | cons a as ih =>
      by_cases ha : p a
      · rw [List.cons_append, splitOnChar_cons_sep p a _ ha,
          splitOnChar_cons_sep p a as ha, ih, List.cons_append]
      · rw [List.cons_append, splitOnChar_cons_nosep p a _ (by simp [ha]),
          splitOnChar_cons_nosep p a as (by simp [ha]), ih]
        cases hs : splitOnChar p as with
        | nil => exact absurd hs (splitOnChar_ne_nil p as)
        | cons s ss => simp

theorem splitOnChar_no_sep (p : Char → Bool) (l : List Char)
    (h : ∀ c ∈ l, p c = false) : splitOnChar p l = [l] := by
  induction l with
  | nil => rfl
  | cons a as ih =>
      rw [splitOnChar_cons_nosep p a as (h a (List.mem_cons_self a as)),
        ih fun c hc => h c (List.mem_cons_of_mem a hc)]
      rfl

theorem splitOnChar_mem_no_sep (p : Char → Bool) (l : List Char) :
    ∀ s ∈ splitOnChar p l, ∀ c ∈ s, p c = false := by
  induction l with
  | nil =>
      intro s hs c hc
      rw [show splitOnChar p [] = [[]] from rfl, List.mem_singleton] at hs
      subst hs
      cases hc
  | cons a as ih =>
      intro s hs c hc
      by_cases ha : p a
      · rw [splitOnChar_cons_sep p a as ha] at hs
        rcases List.mem_cons.mp hs with h1 | h1
        · subst h1; cases hc
        · exact ih s h1 c hc
      · rw [splitOnChar_cons_nosep p a as (by simp [ha])] at hs
        rcases List.mem_cons.mp hs with h1 | h1
        · subst h1
          rcases List.mem_cons.mp hc with h2 | h2
          · subst h2; simpa using ha
          · have hhead : (splitOnChar p as).headD [] ∈ splitOnChar p as := by
              cases hr : splitOnChar p as with
              | nil => exact absurd hr (splitOnChar_ne_nil p as)
              | cons s0 ss => simp
            exact ih _ hhead c h2
        · exact ih s (List.mem_of_mem_tail h1) c hc

theorem joinSegs_cons_ne (a : String) (l : List String) (h : l ≠ []) :
    joinSegs (a :: l) = a ++ "/" ++ joinSegs l := by
  cases l with
  | nil => exact absurd rfl h
  | cons b rest => rfl

theorem pathSegs_ne_nil (s : String) : pathSegs s ≠ [] := by
  rw [pathSegs]
  intro h
  exact splitOnChar_ne_nil _ s.data (List.map_eq_nil_iff.mp h)

theorem joinSegs_splitSlash (cs : List Char) :
    (joinSegs ((splitOnChar (fun c => c = '/') cs).map String.mk)).data = cs := by
  induction cs with
  | nil => rfl
  | cons a as ih =>
      by_cases ha : a = '/'
      · subst ha
        rw [splitOnChar_cons_sep _ _ _ (by simp), List.map_cons]
        rw [joinSegs_cons_ne _ _ (by
          intro h
          exact splitOnChar_ne_nil _ as (List.map_eq_nil_iff.mp h))]
        rw [String.data_append, String.data_append, ih]
        rfl
      · rw [splitOnChar_cons_nosep _ _ _ (by simp [ha])]
        cases hr : splitOnChar (fun c => c = '/') as with
        | nil => exact absurd hr (splitOnChar_ne_nil _ as)
        | cons s ss =>
            rw [hr] at ih
            cases ss with
            | nil =>
                have ih2 : s = as := ih
                show a :: s = a :: as
                rw [ih2]
            | cons s2 ss2 =>
                rw [List.map_cons, joinSegs_cons_ne _ _ (by simp)] at ih
                rw [String.data_append, String.data_append] at ih
                show (String.mk (a :: s) ++ "/" ++
                  joinSegs (List.map String.mk (s2 :: ss2))).data = a :: as
                rw [String.data_append, String.data_append, ← ih]
                rfl

theorem joinSegs_pathSegs (s : String) : joinSegs (pathSegs s) = s := by
  rw [← String.toList_inj]
  exact joinSegs_splitSlash s.data

theorem getLastD_irrel (l : List String) (h : l ≠ []) (d e : String) :
    l.getLastD d = l.getLastD e := by
  cases l with
  | nil => exact absurd rfl h
  | cons a rest => rw [List.getLastD_cons, List.getLastD_cons]

theorem getLastD_append_right (l1 l2 : List String) (h : l2 ≠ []) (d : String) :
    (l1 ++ l2).getLastD d = l2.getLastD d := by
  induction l1 generalizing d with
  | nil => rfl
  | cons a l1 ih =>
      rw [List.cons_append, List.getLastD_cons, ih]
      exact getLastD_irrel l2 h a d

theorem pathSegs_mem_no_slash (s t : String) (ht : t ∈ pathSegs s) :
    ∀ c ∈ t.data, ¬ c = '/' := by
  rw [pathSegs] at ht
  obtain ⟨seg, hseg, het⟩ := List.mem_map.mp ht
  subst het
  intro c hc
  have hf := splitOnChar_mem_no_sep (fun c => c = '/') s.data seg hseg c hc
  simpa using hf

theorem isAbsPath_no_slash (t : String) (h : ∀ c ∈ t.data, ¬ c = '/') :
    isAbsPath t = false := by
  rw [isAbsPath]
  cases hd : t.data with
  | nil => rfl
  | cons c rest =>
      have hc := h c (by rw [hd]; exact List.mem_cons_self c rest)
      simp [hc]

theorem pname_not_abs (s : String) : isAbsPath (pname s) = false := by
  rw [pname]
  cases hr : pathSegs s with
  | nil => rfl
  | cons a rest =>
      apply isAbsPath_no_slash
      have hmem : (a :: rest).getLastD "" ∈ pathSegs s := by
        rw [hr, List.getLastD_cons]
        exact List.getLastD_mem_cons rest a
      exact pathSegs_mem_no_slash s _ hmem

theorem pathSegs_append_slash (s t : String) :
    pathSegs (s ++ "/" ++ t) = pathSegs s ++ pathSegs t := by
  rw [pathSegs, pathSegs, pathSegs, String.data_append, String.data_append]
  rw [show ("/" : String).data = ['/'] from rfl, List.append_assoc]
  rw [show (['/'] ++ t.data : List Char) = '/' :: t.data from rfl]
  rw [splitOnChar_append_sep _ _ _ '/' rfl, List.map_append]

theorem pathSegs_length_of_abs (l : String) (h : isAbsPath l = true) :
    2 ≤ (pathSegs l).length := by
  rw [isAbsPath] at h
  have hh : l.data.head? = some '/' := of_decide_eq_true h
  cases hd : l.data with
  | nil => rw [hd] at hh; cases hh
  | cons c rest =>
      rw [hd, List.head?_cons] at hh
      have hc : c = '/' := Option.some.inj hh
      subst hc
      rw [pathSegs, hd, splitOnChar_cons_sep _ _ _ rfl, List.map_cons]
      cases hs : splitOnChar (fun c => c = '/') rest with
      | nil => exact absurd hs (splitOnChar_ne_nil _ rest)
      | cons s ss => simp

theorem pjoin_abs (a b : String) (h : isAbsPath b = true) : pjoin a b = b := by
  rw [pjoin, if_pos h]

theorem pjoin_rel (a b : String) (h : isAbsPath b = false) :
    pjoin a b = a ++ "/" ++ b := by
  rw [pjoin, if_neg (by simp [h])]

theorem joinSegs_dropLast_getLastD (l : List String) (h : 2 ≤ l.length) :
    joinSegs l.dropLast ++ "/" ++ l.getLastD "" = joinSegs l := by
  induction l with
  | nil => simp at h
  | cons a rest ih =>
      cases rest with
      | nil => simp at h
      | cons b rest2 =>
          cases rest2 with
          | nil => rfl
          | cons c rest3 =>
              rw [show (a :: b :: c :: rest3).dropLast =
                a :: (b :: c :: rest3).dropLast from rfl]
              have hne : (b :: c :: rest3).dropLast ≠ [] := by
                rw [show (b :: c :: rest3).dropLast =
                  b :: (c :: rest3).dropLast from rfl]
                simp
              rw [joinSegs_cons_ne a _ hne]
              rw [List.getLastD_cons,
                getLastD_irrel (b :: c :: rest3) (by simp) a ""]
              rw [joinSegs_cons_ne a (b :: c :: rest3) (by simp)]
              rw [← ih (by simp)]
              simp [String.append_assoc]

theorem pjoin_parent_name (s : String) (h2 : 2 ≤ (pathSegs s).length) :
    pjoin (pparent s) (pname s) = s := by
  rw [pjoin_rel _ _ (pname_not_abs s), pparent, pname]
  rw [joinSegs_dropLast_getLastD (pathSegs s) h2, joinSegs_pathSegs]

theorem pname_pjoin_rel (d l : String) (h : isAbsPath l = false) :
    pname (pjoin d l) = pname l := by
  rw [pjoin_rel d l h, pname, pname, pathSegs_append_slash]
  exact getLastD_append_right _ _ (pathSegs_ne_nil l) ""

theorem linkTarget_abs (d l : String) (h : isAbsPath l = true) :
    linkTarget d l = l := by
  rw [linkTarget, pjoin_abs d l h]
  exact pjoin_parent_name l (pathSegs_length_of_abs l h)

theorem linkTarget_rel (d l : String) (h : isAbsPath l = false) :
    linkTarget d l = d ++ "/" ++ l := by
  have hlen : 2 ≤ (pathSegs (pjoin d l)).length := by
    rw [pjoin_rel d l h, pathSegs_append_slash, List.length_append]
    have h1 := List.length_pos.mpr (pathSegs_ne_nil d)
    have h2 := List.length_pos.mpr (pathSegs_ne_nil l)
    omega
  rw [linkTarget, ← pname_pjoin_rel d l h, pjoin_parent_name _ hlen,
    pjoin_rel d l h]

/-- C10, counterexample to the original reading: packing a symlink whose
resolved target is the absolute path `/outside/x` stores that absolute
string verbatim (not an archive-root-relative path), and extraction then
recreates a link pointing at `/outside/x` itself — not at a path under
the destination root `dest`. -/
theorem claim_c10_counterexample :
    linkItems "" (packEntries [("ln", FS.symlink "/outside/x")] 0).1 =
      [("ln", "/outside/x")] ∧
    isAbsPath "/outside/x" = true ∧
    linkTarget "dest" "/outside/x" = "/outside/x" ∧
    underDir "dest" (linkTarget "dest" "/outside/x") = false := by
  refine ⟨?_, rfl, rfl, rfl⟩
  simp [packEntries, linkItems_cons_link, linkItems_nil, joinPath]

/-- C10 (amended): `_dir_to_dict` stores `str(entry.resolve())` for every
symlink — the fully resolved target string, verbatim — and
`_extract_link` recreates the link at
`(destination/link).parent / Path(link).name`: for a relative stored
target this resolves to `destination/link`, but an absolute stored
target is kept as-is, pointing outside the destination; an existing
entry at the link's path is replaced (unlink-and-retry), so the final
state maps it to the new target. -/
theorem claim_c10_symlink_targets (es : List (String × FS)) (c : Nat)
    (pre d l : String) (st : LinkState) (path tgt : String) :
    linkItems pre (packEntries es c).1 = fsLinks pre (canonMap es) ∧
    (isAbsPath l = true → linkTarget d l = l) ∧
    (isAbsPath l = false → linkTarget d l = d ++ "/" ++ l) ∧
    applySymlink st path tgt path = some tgt := by
  refine ⟨?_, linkTarget_abs d l, linkTarget_rel d l, by simp [applySymlink]⟩
  rw [packEntries_eq_plain]
  exact (packPlain_spec (canonMap es) c pre).2.2.2

/-- Witness for the amended C10 at concrete inputs: a packed relative
symlink target stored verbatim, an absolute target surviving
`linkTarget`, a relative target landing under the destination, and
replacement of an existing link. -/
theorem claim_c10_symlink_targets_witness :
    linkItems "" (packEntries [("ln", FS.symlink "sub/t.txt")] 0).1 =
      [("ln", "sub/t.txt")] ∧
    linkTarget "dest" "/abs/t" = "/abs/t" ∧
    linkTarget "dest" "sub/t.txt" = "dest/sub/t.txt" ∧
    applySymlink (fun _ => some "old") "dest/ln" "new" "dest/ln" = some "new" := by
  refine ⟨?_, ?_, ?_, ?_⟩
  · rw [(claim_c10_symlink_targets [("ln", FS.symlink "sub/t.txt")] 0 "" "d" "l"
      (fun _ => none) "p" "t").1]
    simp [canonMap_cons, canonMap_nil, canonFS_symlink, fsLinks_cons_symlink,
      fsLinks_nil, joinPath]
  · exact (claim_c10_symlink_targets [] 0 "" "dest" "/abs/t"
      (fun _ => none) "p" "t").2.1 rfl
  · rw [(claim_c10_symlink_targets [] 0 "" "dest" "sub/t.txt"
      (fun _ => none) "p" "t").2.2.1 rfl]
    rfl
  · exact (claim_c10_symlink_targets [] 0 "" "d" "l"
      (fun _ => some "old") "dest/ln" "new").2.2.2

/-! ### Round trip (C5): extraction machinery -/

theorem extractWalk_nil (arc : Bytes) (base : Nat) (src : String) :
    extractWalk arc base src [] = [] := by
  rw [extractWalk]

theorem extractWalk_cons_dir (arc : Bytes) (base : Nat) (src name : String)
    (sub rest : Entries) :
    extractWalk arc base src ((name, Node.dir sub) :: rest) =
      extractWalk arc base (src ++ "/" ++ name) sub ++
        extractWalk arc base src rest := by
  rw [extractWalk]

theorem extractWalk_cons_file (arc : Bytes) (base : Nat) (src name : String)
    (sz off : Nat) (rest : Entries) :
    extractWalk arc base src ((name, Node.file sz off) :: rest) =
      (src ++ "/" ++ name, slice arc (base + off) sz) ::
        extractWalk arc base src rest := by
  rw [extractWalk]

theorem extractWalk_cons_unpacked (arc : Bytes) (base : Nat) (src name : String)
    (sz : Nat) (rest : Entries) :
    extractWalk arc base src ((name, Node.unpacked sz) :: rest) =
      extractWalk arc base src rest := by
  rw [extractWalk]
  all_goals (intros; simp_all)

theorem extractWalk_cons_link (arc : Bytes) (base : Nat) (src name t : String)
    (rest : Entries) :
    extractWalk arc base src ((name, Node.link t) :: rest) =
      extractWalk arc base src rest := by
  rw [extractWalk]
  all_goals (intros; simp_all)

theorem validFSB_nil : validFSB [] = true := by rw [validFSB]

theorem validFSB_cons_dir (name : String) (sub rest : List (String × FS)) :
    validFSB ((name, FS.dir sub) :: rest) =
      (validNameB name && validFSB sub && validFSB rest) := by
  rw [validFSB]

theorem validFSB_cons_file (name : String) (d : Bytes)
    (rest : List (String × FS)) :
    validFSB ((name, FS.file d) :: rest) =
      (validNameB name && validFSB rest) := by
  rw [validFSB]
  all_goals intro _ h; cases h

theorem validFSB_cons_symlink (name t : String) (rest : List (String × FS)) :
    validFSB ((name, FS.symlink t) :: rest) =
      (validNameB name && validFSB rest) := by
  rw [validFSB]
  all_goals intro _ h; cases h

theorem slice_at_append (A B C : Bytes) (p n : Nat) (hp : p = A.length)
    (hn : n = B.length) : slice (A ++ (B ++ C)) p n = B := by
  subst hp
  subst hn
  rw [slice, List.drop_left, List.take_left]

theorem readsBack_cons (arc : Bytes) (base c : Nat) (d : Bytes) (L : List Bytes) :
    readsBack arc base c (d :: L) ↔
      (slice arc (base + c) d.length = d ∧
        readsBack arc base (c + d.length) L) := Iff.rfl

theorem readsBack_append (arc : Bytes) (base : Nat) (L1 L2 : List Bytes) :
    ∀ c, readsBack arc base c (L1 ++ L2) ↔
      (readsBack arc base c L1 ∧
        readsBack arc base (c + (L1.map List.length).sum) L2) := by
  induction L1 with
  | nil => intro c; simp [readsBack]
  | cons d rest ih =>
      intro c
      rw [List.cons_append, readsBack_cons, readsBack_cons, ih (c + d.length)]
      have harith : c + d.length + (rest.map List.length).sum =
          c + ((d :: rest).map List.length).sum := by
        simp only [List.map_cons, List.sum_cons]
        omega
      rw [harith]
      exact and_assoc.symm

theorem readsBack_append_flatten (F A : Bytes) (L : List Bytes) :
    ∀ (c : Nat), A.length = c → readsBack (F ++ (A ++ L.flatten)) F.length c L := by
  induction L generalizing A with
  | nil => intro c _; trivial
  | cons d rest ih =>
      intro c hA
      rw [List.flatten_cons]
      constructor
      · rw [← List.append_assoc]
        exact slice_at_append (F ++ A) d rest.flatten _ _
          (by simp [hA]) rfl
      · have h2 := ih (A ++ d) (c + d.length) (by simp [hA])
        rw [List.append_assoc] at h2
        exact h2

theorem map_snd_length_sum (L : List (String × Bytes)) :
    ((L.map Prod.snd).map List.length).sum = (L.map fun x => x.2.length).sum := by
  rw [List.map_map]
  rfl

theorem slashJoin_ne_empty (s n : String) : s ++ "/" ++ n ≠ "" := by
  intro h
  have h2 := congrArg String.data h
  rw [String.data_append, String.data_append] at h2
  simp at h2

theorem joinPath_ne_empty (pre name : String) (hn : name ≠ "") :
    joinPath pre name ≠ "" := by
  rw [joinPath]
  by_cases hp : pre = ""
  · rw [if_pos hp]; exact hn
  · rw [if_neg hp]; exact slashJoin_ne_empty pre name

theorem validNameB_props (s : String) (h : validNameB s = true) :
    s ≠ "" ∧ s ≠ "." ∧ ∀ c ∈ s.data, ¬ c = '/' := by
  rw [validNameB, Bool.and_eq_true, Bool.and_eq_true] at h
  obtain ⟨⟨h1, h2⟩, h3⟩ := h
  refine ⟨by simpa using h1, by simpa using h2, ?_⟩
  intro c hc
  have h4 := List.all_eq_true.mp h3 c hc
  simpa using h4

theorem pathSegs_valid_name (s : String) (h : ∀ c ∈ s.data, ¬ c = '/') :
    pathSegs s = [s] := by
  rw [pathSegs, splitOnChar_no_sep]
  · rfl
  · intro c hc
    simp [h c hc]

theorem joinPath_prepend (q pre name : String) (hq : q ≠ "") (hn : name ≠ "") :
    joinPath (if pre = "" then q else q ++ "/" ++ pre) name =
      if joinPath pre name = "" then q else q ++ "/" ++ joinPath pre name := by
  by_cases hp : pre = ""
  · subst hp
    rw [if_pos rfl]
    rw [show joinPath "" name = name from by rw [joinPath, if_pos rfl]]
    rw [if_neg hn, joinPath, if_neg hq]
  · rw [if_neg hp]
    rw [show joinPath pre name = pre ++ "/" ++ name from by rw [joinPath, if_neg hp]]
    rw [if_neg (slashJoin_ne_empty pre name), joinPath,
      if_neg (slashJoin_ne_empty q pre)]
    simp [String.append_assoc]

theorem extractWalk_packPlain (es : List (String × FS)) (c : Nat) :
    ∀ (src : String) (arc : Bytes) (base : Nat), src ≠ "" →
      readsBack arc base c ((fsFiles src es).map Prod.snd) →
      extractWalk arc base src (packPlain es c).1 = fsFiles src es := by
  induction es, c using packPlain.induct with
  | case1 c =>
      intro src arc base _ _
      rw [fsFiles_nil]
      simp only [packPlain]
      exact extractWalk_nil arc base src
  | case2 name t rest c ih =>
      intro src arc base hsrc h
      rw [fsFiles_cons_symlink] at h
      simp only [packPlain]
      rw [extractWalk_cons_link, fsFiles_cons_symlink]
      exact ih src arc base hsrc h
  | case3 name sub rest c ihsub ihrest =>
      intro src arc base hsrc h
      have hjp : joinPath src name = src ++ "/" ++ name := by
        rw [joinPath, if_neg hsrc]
      rw [fsFiles_cons_dir, List.map_append, readsBack_append] at h
      obtain ⟨hsub, hrest⟩ := h
      simp only [packPlain]
      rw [extractWalk_cons_dir, fsFiles_cons_dir, ← hjp]
      rw [ihsub (joinPath src name) arc base
        (by rw [hjp]; exact slashJoin_ne_empty src name) hsub]
      congr 1
      apply ihrest src arc base hsrc
      have hcnt : (packPlain sub c).2.1 =
          c + (((fsFiles (joinPath src name) sub).map Prod.snd).map List.length).sum := by
        rw [(packPlain_spec sub c (joinPath src name)).1, map_snd_length_sum]
      rw [hcnt]
      exact hrest
  | case4 name d rest c ih =>
      intro src arc base hsrc h
      rw [fsFiles_cons_file, List.map_cons, readsBack_cons] at h
      obtain ⟨h1, h2⟩ := h
      simp only [packPlain]
      rw [extractWalk_cons_file, fsFiles_cons_file]
      rw [show joinPath src name = src ++ "/" ++ name from by rw [joinPath, if_neg hsrc]]
      rw [h1, ih src arc base hsrc h2]

theorem validFSB_iff (l : List (String × FS)) :
    validFSB l = true ↔
      ∀ x ∈ l, validNameB x.1 = true ∧
        ∀ sub, x.2 = FS.dir sub → validFSB sub = true := by
  induction l with
  | nil => simp [validFSB_nil]
  | cons x rest ih =>
      obtain ⟨name, f⟩ := x
      cases f with
      | dir sub =>
          rw [validFSB_cons_dir, Bool.and_eq_true, Bool.and_eq_true, ih]
          constructor
          · rintro ⟨⟨h1, h2⟩, h3⟩ y hy
            rcases List.mem_cons.mp hy with rfl | hy
            · refine ⟨h1, ?_⟩
              intro sub2 hsub2
              injection hsub2 with h4
              rw [← h4]
              exact h2
            · exact h3 y hy
          · intro h
            have hx := h (name, FS.dir sub) (List.mem_cons_self _ _)
            exact ⟨⟨hx.1, hx.2 sub rfl⟩, fun y hy => h y (List.mem_cons_of_mem _ hy)⟩
      | file d =>
          rw [validFSB_cons_file, Bool.and_eq_true, ih]
          constructor
          · rintro ⟨h1, h2⟩ y hy
            rcases List.mem_cons.mp hy with rfl | hy
            · exact ⟨h1, fun sub2 hsub2 => by cases hsub2⟩
            · exact h2 y hy
          · intro h
            exact ⟨(h _ (List.mem_cons_self _ _)).1,
              fun y hy => h y (List.mem_cons_of_mem _ hy)⟩
      | symlink t =>
          rw [validFSB_cons_symlink, Bool.and_eq_true, ih]
          constructor
          · rintro ⟨h1, h2⟩ y hy
            rcases List.mem_cons.mp hy with rfl | hy
            · exact ⟨h1, fun sub2 hsub2 => by cases hsub2⟩
            · exact h2 y hy
          · intro h
            exact ⟨(h _ (List.mem_cons_self _ _)).1,
              fun y hy => h y (List.mem_cons_of_mem _ hy)⟩

theorem validFSB_perm (l l2 : List (String × FS)) (hp : l.Perm l2)
    (h : validFSB l = true) : validFSB l2 = true := by
  rw [validFSB_iff] at h ⊢
  intro x hx
  exact h x (hp.mem_iff.mpr hx)

theorem canonMap_eq_map (l : List (String × FS)) :
    canonMap l = l.map fun y => (y.1, canonFS y.2) := by
  induction l with
  | nil => rw [canonMap_nil]; rfl
  | cons x rest ih => rw [canonMap_cons, ih]; rfl

theorem validFSB_canon (l : List (String × FS)) (h : validFSB l = true) :
    validFSB (canonList l) = true := by
  have main : ∀ (n : Nat) (l2 : List (String × FS)), sizeOf l2 < n →
      validFSB l2 = true → validFSB (sortByName (canonMap l2)) = true := by
    intro n
    induction n with
    | zero => intro l2 hl2 _; exact absurd hl2 (Nat.not_lt_zero _)
    | succ n ih =>
        intro l2 hl2 hv
        apply validFSB_perm (canonMap l2)
        · exact (List.perm_insertionSort _ (canonMap l2)).symm
        · rw [validFSB_iff]
          intro x hx
          rw [canonMap_eq_map] at hx
          obtain ⟨y, hy, rfl⟩ := List.mem_map.mp hx
          have hvy := (validFSB_iff l2).mp hv y hy
          refine ⟨hvy.1, ?_⟩
          intro sub hsub
          cases hf : y.2 with
          | file d => rw [hf, canonFS_file] at hsub; cases hsub
          | symlink t => rw [hf, canonFS_symlink] at hsub; cases hsub
          | dir es0 =>
              rw [hf, canonFS_dir] at hsub
              injection hsub with h4
              rw [← h4]
              apply ih es0 ?_ (hvy.2 es0 hf)
              have h1 : sizeOf y < sizeOf l2 := List.sizeOf_lt_of_mem hy
              have h2 : sizeOf es0 < sizeOf y := by
                obtain ⟨a, f⟩ := y
                have hf2 : f = FS.dir es0 := hf
                subst hf2
                simp only [Prod.mk.sizeOf_spec, FS.dir.sizeOf_spec]
                omega
              omega
  rw [canonList]
  exact main (sizeOf l + 1) l (Nat.lt_succ_self _) h

theorem fsFiles_prepend (q : String) (hq : q ≠ "") (pre : String)
    (es : List (String × FS)) :
    validFSB es = true →
      fsFiles (if pre = "" then q else q ++ "/" ++ pre) es =
        (fsFiles pre es).map fun x => (q ++ "/" ++ x.1, x.2) := by
  induction pre, es using fsFiles.induct with
  | case1 pre =>
      intro _
      rw [fsFiles_nil, fsFiles_nil]
      rfl
  | case2 pre name sub rest ihsub ihrest =>
      intro hv
      rw [validFSB_cons_dir, Bool.and_eq_true, Bool.and_eq_true] at hv
      obtain ⟨⟨hn, hs⟩, hr⟩ := hv
      rw [fsFiles_cons_dir, fsFiles_cons_dir, List.map_append]
      rw [joinPath_prepend q pre name hq (validNameB_props name hn).1]
      rw [ihsub hs, ihrest hr]
  | case3 pre name d rest ih =>
      intro hv
      rw [validFSB_cons_file, Bool.and_eq_true] at hv
      obtain ⟨hn, hr⟩ := hv
      rw [fsFiles_cons_file, fsFiles_cons_file, List.map_cons]
      rw [joinPath_prepend q pre name hq (validNameB_props name hn).1]
      rw [if_neg (joinPath_ne_empty pre name (validNameB_props name hn).1)]
      rw [ih hr]
  | case4 pre name t rest ih =>
      intro hv
      rw [validFSB_cons_symlink, Bool.and_eq_true] at hv
      rw [fsFiles_cons_symlink, fsFiles_cons_symlink]
      exact ih hv.2

theorem joinPath_segs_valid (pre name : String)
    (hpre : pre = "" ∨ ∀ seg ∈ pathSegs pre, seg ≠ "" ∧ seg ≠ ".")
    (hn : validNameB name = true) :
    ∀ seg ∈ pathSegs (joinPath pre name), seg ≠ "" ∧ seg ≠ "." := by
  intro seg hseg
  have hp := validNameB_props name hn
  rcases hpre with hpre | hpre
  · rw [hpre, joinPath, if_pos rfl, pathSegs_valid_name name hp.2.2,
      List.mem_singleton] at hseg
    subst hseg
    exact ⟨hp.1, hp.2.1⟩
  · have hpne : pre ≠ "" := by
      intro h0
      have hmem : ("" : String) ∈ pathSegs "" := by decide
      rw [h0] at hpre
      exact (hpre "" hmem).1 rfl
    rw [joinPath, if_neg hpne, pathSegs_append_slash,
      pathSegs_valid_name name hp.2.2] at hseg
    rcases List.mem_append.mp hseg with h1 | h1
    · exact hpre seg h1
    · rw [List.mem_singleton] at h1
      subst h1
      exact ⟨hp.1, hp.2.1⟩

theorem fsFiles_segs_valid (pre : String) (es : List (String × FS)) :
    validFSB es = true →
    (pre = "" ∨ ∀ seg ∈ pathSegs pre, seg ≠ "" ∧ seg ≠ ".") →
    ∀ x ∈ fsFiles pre es, ∀ seg ∈ pathSegs x.1, seg ≠ "" ∧ seg ≠ "." := by
  induction pre, es using fsFiles.induct with
  | case1 pre =>
      intro _ _ x hx
      rw [fsFiles_nil] at hx
      cases hx
  | case2 pre name sub rest ihsub ihrest =>
      intro hv hpre x hx
      rw [validFSB_cons_dir, Bool.and_eq_true, Bool.and_eq_true] at hv
      obtain ⟨⟨hn, hs⟩, hr⟩ := hv
      rw [fsFiles_cons_dir] at hx
      rcases List.mem_append.mp hx with hx1 | hx2
      · exact ihsub hs (Or.inr (joinPath_segs_valid pre name hpre hn)) x hx1
      · exact ihrest hr hpre x hx2
  | case3 pre name d rest ih =>
      intro hv hpre x hx
      rw [validFSB_cons_file, Bool.and_eq_true] at hv
      obtain ⟨hn, hr⟩ := hv
      rw [fsFiles_cons_file] at hx
      rcases List.mem_cons.mp hx with rfl | hx1
      · exact joinPath_segs_valid pre name hpre hn
      · exact ih hr hpre x hx1
  | case4 pre name t rest ih =>
      intro hv hpre x hx
      rw [validFSB_cons_symlink, Bool.and_eq_true] at hv
      rw [fsFiles_cons_symlink] at hx
      exact ih hv.2 hpre x hx

theorem normPath_dotslash (p : String)
    (h : ∀ seg ∈ pathSegs p, seg ≠ "" ∧ seg ≠ ".") :
    normPath ("." ++ "/" ++ p) = p := by
  rw [normPath, pathSegs_append_slash]
  rw [show pathSegs "." = ["."] from rfl]
  rw [List.filter_append]
  rw [show (["."].filter fun seg => seg != "" && seg != ".") = [] from rfl]
  rw [List.nil_append]
  rw [List.filter_eq_self.mpr ?_, joinSegs_pathSegs]
  intro seg hseg
  have h2 := h seg hseg
  simp [h2.1, h2.2]

/-- C5: for a directory tree of regular files and subdirectories only
(with ordinary entry names: nonempty, not `"."`, no `/`), packing with
`Asar.compress` and then extracting the resulting archive with
`Asar.extract` reproduces every file's bytes at its archive-relative
path: the extracted `(path, bytes)` pairs — paths normalized the way
`pathlib` resolves the walk's `"./"`-prefixed item paths against the
fresh destination — are exactly the files of the packed tree (read in
the canonical per-directory sorted order `compress` itself uses). -/
theorem claim_c5_roundtrip (es : List (String × FS))
    (hval : validFSB es = true) (_hfiles : filesOnlyB es = true) :
    (extractAll (packEntries (sortByName es) 0).1 (compressArchive es)
        (compressBase es)).map (fun pb => (normPath pb.1, pb.2)) =
      fsFiles "" (canonList es) := by
  have hvCL : validFSB (canonList es) = true := validFSB_canon es hval
  have hpack : (packEntries (sortByName es) 0).1 = (packPlain (canonList es) 0).1 := by
    rw [packEntries_eq_plain, ← sortByName_canonMap, canonList]
  have hbase : compressBase es =
      (headerFrame (headerJsonBytes (compressHeader es))).length := by
    rw [compressBase, headerFrame_length, roundUp_shift]
  have hdata : compressData es =
      ((fsFiles "." (canonList es)).map Prod.snd).flatten := by
    rw [compressData, packEntries_eq_plain, ← sortByName_canonMap]
    rw [show (packPlain (sortByName (canonMap es)) 0).2.2 =
      (fsFiles "." (canonList es)).map Prod.snd from
        (packPlain_spec (canonList es) 0 ".").2.2.1]
  have hrb : readsBack (compressArchive es) (compressBase es) 0
      ((fsFiles "." (canonList es)).map Prod.snd) := by
    rw [compressArchive, hbase, hdata]
    have h0 := readsBack_append_flatten
      (headerFrame (headerJsonBytes (compressHeader es))) []
      ((fsFiles "." (canonList es)).map Prod.snd) 0 rfl
    simpa using h0
  rw [extractAll, hpack,
    extractWalk_packPlain (canonList es) 0 "." (compressArchive es)
      (compressBase es) (by decide) hrb]
  have hpp := fsFiles_prepend "." (by decide) "" (canonList es) hvCL
  rw [if_pos rfl] at hpp
  rw [hpp, List.map_map]
  have hmap : ∀ x ∈ fsFiles "" (canonList es),
      ((fun pb : String × Bytes => (normPath pb.1, pb.2)) ∘
        fun x : String × Bytes => ("." ++ "/" ++ x.1, x.2)) x = id x := by
    intro x hx
    have hseg := fsFiles_segs_valid "" (canonList es) hvCL (Or.inl rfl) x hx
    simp only [Function.comp_apply, id_eq]
    rw [normPath_dotslash x.1 hseg]
  rw [List.map_congr_left hmap, List.map_id]

/-- Witness for C5 at a concrete two-level tree with unsorted input
order. -/
theorem claim_c5_roundtrip_witness :
    validFSB [("b", FS.file [7]), ("a", FS.dir [("c", FS.file [1, 2])])] = true ∧
    filesOnlyB [("b", FS.file [7]), ("a", FS.dir [("c", FS.file [1, 2])])] = true ∧
    (extractAll
        (packEntries (sortByName
          [("b", FS.file [7]), ("a", FS.dir [("c", FS.file [1, 2])])]) 0).1
        (compressArchive [("b", FS.file [7]), ("a", FS.dir [("c", FS.file [1, 2])])])
        (compressBase [("b", FS.file [7]), ("a", FS.dir [("c", FS.file [1, 2])])])).map
        (fun pb => (normPath pb.1, pb.2)) =
      fsFiles "" (canonList [("b", FS.file [7]), ("a", FS.dir [("c", FS.file [1, 2])])]) :=
  ⟨by simp [validFSB_cons_dir, validFSB_cons_file, validFSB_nil, validNameB],
   by simp [filesOnlyB],
   claim_c5_roundtrip _
     (by simp [validFSB_cons_dir, validFSB_cons_file, validFSB_nil, validNameB])
     (by simp [filesOnlyB])⟩

end AsarSpec

